import Mathlib

/-!
Verification of the hippo directed-graph library (hippo/graph.py).

The embedding identifies node objects with natural-number ids (ids are unique
within a graph, so a Python Node object of a given graph is determined by its
id).  A Graph holds the registry of node ids in insertion order (Python dicts
iterate in insertion order) together with the two adjacency maps: for a node
id n, out n is the ordered list of successor ids (the _out list of the node
object) and inn n the ordered list of predecessor ids (the _in list).
Adjacency of ids that are not (or no longer) in the registry is kept in the
maps: this mirrors dangling Python Node objects, which keep their stale lists
after removal.
-/

namespace Hippo

/-- A directed graph: registry of node ids in insertion order plus the two
adjacency maps of the node objects. -/
structure Graph where
  nodes : List Nat
  out : Nat → List Nat
  inn : Nat → List Nat

/-- Adjacency actually followed by a traversal: out edges, or in edges when
the traversal is reversed (the if in dfs_path, bfs_path and edges_iter). -/
def Graph.adj (g : Graph) (reverse : Bool) (n : Nat) : List Nat :=
  if reverse then g.inn n else g.out n

/-- Node.link: appends the edge self -> node to both adjacency lists unless
already present; a silent no-op on self (this is the body after the
cross-graph guard, which is modelled by World.link below). -/
def Node.link (g : Graph) (a b : Nat) : Graph :=
  if a = b then g
  else
    { g with
      out := Function.update g.out a
        (if b ∈ g.out a then g.out a else g.out a ++ [b]),
      inn := Function.update g.inn b
        (if a ∈ g.inn b then g.inn b else g.inn b ++ [a]) }

/-- Node.unlink: removes the edge self -> node from both adjacency lists. -/
def Node.unlink (g : Graph) (a b : Nat) : Graph :=
  { g with
    out := Function.update g.out a ((g.out a).filter (fun n => n ≠ b)),
    inn := Function.update g.inn b ((g.inn b).filter (fun n => n ≠ a)) }

/-- Node.remove: severs the node from every neighbour (both directions) and
deregisters the id.  The removed node object keeps its own stale adjacency
lists, hence out n and inn n are untouched. -/
def Node.remove (g : Graph) (n : Nat) : Graph :=
  { nodes := g.nodes.erase n,
    out := fun x => if x ∈ g.inn n then (g.out x).filter (fun m => m ≠ n) else g.out x,
    inn := fun x => if x ∈ g.out n then (g.inn x).filter (fun m => m ≠ n) else g.inn x }

/-- Graph.new: creates a fresh node with empty adjacency; raises ValueError on
a duplicate id. -/
def Graph.new (g : Graph) (id : Nat) : Except String Graph :=
  if id ∈ g.nodes then .error ("ID(" ++ toString id ++ ") already exists")
  else .ok { nodes := g.nodes ++ [id],
             out := Function.update g.out id [],
             inn := Function.update g.inn id [] }

/-- Graph identity for the cross-graph check of link: Python compares the
_graph back references by object identity, so a world of several live Graph
instances is a list of graphs, a node reference being (graph index, id). -/
structure World where
  graphs : List Graph

/-- A reference to a node object: which Graph instance owns it, and its id. -/
structure NodeRef where
  gidx : Nat
  id : Nat

/-- Node.link including the cross-graph guard: raises ValueError when the two
nodes belong to different Graph instances, before touching any state; the
state component of the result is the world after the call. -/
def World.link (w : World) (a b : NodeRef) : World × Option String :=
  if a.gidx ≠ b.gidx then (w, some "Cannot link nodes from different graphs")
  else ({ graphs := w.graphs.modify (fun g => Node.link g a.id b.id) a.gidx }, none)

/-- The adjacency invariant of the data model, restricted to registered nodes
(the spec excepts the brief window of node removal, during which dangling
node objects may hold stale lists): no duplicates, no self loops, adjacency
points inside the registry, and the out and in maps mirror each other. -/
structure Inv (g : Graph) : Prop where
  nodesNodup : g.nodes.Nodup
  outNodup : ∀ n ∈ g.nodes, (g.out n).Nodup
  innNodup : ∀ n ∈ g.nodes, (g.inn n).Nodup
  noSelfOut : ∀ n ∈ g.nodes, n ∉ g.out n
  noSelfInn : ∀ n ∈ g.nodes, n ∉ g.inn n
  outMem : ∀ n ∈ g.nodes, ∀ m ∈ g.out n, m ∈ g.nodes
  innMem : ∀ n ∈ g.nodes, ∀ m ∈ g.inn n, m ∈ g.nodes
  symm : ∀ a ∈ g.nodes, ∀ b ∈ g.nodes, (b ∈ g.out a ↔ a ∈ g.inn b)

/-! The traversal engine: SearchNode, DFS with path reconstruction, BFS,
edge classification, topological order, cycle detection, tree root and
strongly connected components. -/

/-- SearchNode: the visited node, its distance from the search root and an
optional link to the SearchNode that discovered it. -/
inductive SearchNode : Type where
  | root (node : Nat) (dist : Nat) : SearchNode
  | child (node : Nat) (dist : Nat) (parent : SearchNode) : SearchNode
deriving DecidableEq, Repr

namespace SearchNode

def node : SearchNode → Nat
  | root n _ => n
  | child n _ _ => n

def dist : SearchNode → Nat
  | root _ d => d
  | child _ d _ => d

/-- The parent, absent on the root of a search (where Python raises). -/
def parent? : SearchNode → Option SearchNode
  | root _ _ => none
  | child _ _ p => some p

/-- SearchNode.next_node with the default added_distance of 1 (the only way
the library ever calls it). -/
def next_node (sn : SearchNode) (n : Nat) : SearchNode := child n (sn.dist + 1) sn

/-- The id chain from this node back through parents to the search root,
this node first (reverse of SearchNode.path). -/
def chain : SearchNode → List Nat
  | root n _ => [n]
  | child n _ p => n :: p.chain

/-- SearchNode.path: the ids from the root of the search to this node. -/
def path (sn : SearchNode) : List Nat := sn.chain.reverse

end SearchNode

/-- Fuel bound for the traversal recursions below: strictly larger than any
of the decreasing measures they use, so the guarded recursions never run
out (proved in the lemmas that instantiate it). -/
def Graph.fuelBound (g : Graph) : Nat :=
  1 + (g.nodes.map (fun n => 1 + (g.out n).length + (g.inn n).length)).sum

/-- The for loop of Node.dfs_path run over a list of sibling nodes: for each
c the recursive generator call dfs_path(c) is inlined (skip if visited,
else mark visited, recurse into the followed adjacency, and yield the
SearchNode of c after its children: post-order).  The visited set is
threaded left to right.  The fuel argument only bounds the recursion depth
of the embedding; any value at least Graph.dfsMeasure is enough. -/
def dfsSeq (g : Graph) (rev : Bool) : Nat → List Nat → SearchNode → List Nat →
    List SearchNode × List Nat
  | 0, _, _, vis => ([], vis)
  | _ + 1, [], _, vis => ([], vis)
  | fuel + 1, c :: cs, sn, vis =>
    let snc := sn.next_node c
    let r1 :=
      if c ∈ vis then ([], vis)
      else
        let rc := dfsSeq g rev fuel (g.adj rev c) snc (c :: vis)
        (rc.1 ++ [snc], rc.2)
    let r2 := dfsSeq g rev fuel cs sn r1.2
    (r1.1 ++ r2.1, r2.2)

/-- Node.dfs_path on node n with SearchNode sn and a (possibly shared)
visited set: skip if already visited, else mark and traverse the followed
adjacency, yielding sn last (post-order). -/
def Node.dfs_path (g : Graph) (rev : Bool) (fuel : Nat) (n : Nat) (sn : SearchNode)
    (vis : List Nat) : List SearchNode × List Nat :=
  if n ∈ vis then ([], vis)
  else
    let r := dfsSeq g rev fuel (g.adj rev n) sn (n :: vis)
    (r.1 ++ [sn], r.2)

/-- The loop of Graph.topological_order: one shared visited set, a dfs from
every node of the registry in order, following the direction opposite to
the reverse argument; Node.dfs projects each SearchNode to its node. -/
def topoAux (g : Graph) (reverse : Bool) : List Nat → List Nat → List Nat × List Nat
  | [], vis => ([], vis)
  | r :: rs, vis =>
    let y := Node.dfs_path g (!reverse) g.fuelBound r (SearchNode.root r 0) vis
    let rest := topoAux g reverse rs y.2
    (y.1.map SearchNode.node ++ rest.1, rest.2)

def Graph.topological_order (g : Graph) (reverse : Bool) : List Nat :=
  (topoAux g reverse g.nodes []).1

/-- The loop of Graph.strongly_connected_components: iterate the priority
order, and for each yet unvisited node emit the forward dfs from it (each
inner iterator fully consumed before the outer advances, which is the
consumption discipline the claim fixes). -/
def sccAux (g : Graph) : List Nat → List Nat → List (List Nat) × List Nat
  | [], vis => ([], vis)
  | n :: ns, vis =>
    if n ∈ vis then sccAux g ns vis
    else
      let y := Node.dfs_path g false g.fuelBound n (SearchNode.root n 0) vis
      let rest := sccAux g ns y.2
      (y.1.map SearchNode.node :: rest.1, rest.2)

def Graph.strongly_connected_components (g : Graph) : List (List Nat) :=
  (sccAux g (g.topological_order true) []).1

inductive EdgeType : Type where
  | TREE_EDGE
  | TRIVIAL_BACK_EDGE
  | BACK_EDGE
  | CROSS_EDGE
deriving DecidableEq, Repr

inductive VisitedType : Type where
  | VISITED
  | EXPLORED
deriving DecidableEq, Repr

/-- The _visited dictionary of Node.edges_iter: absent means unseen,
EXPLORED means in progress, VISITED means finished. -/
abbrev VMap := Nat → Option VisitedType

/-- The for loop of Node.edges_iter over the remaining adjacency of the node
carried by sn.  Every edge to a node c is classified against the tri-state
marker of c at that moment; the recursive generator call that follows the
classification is inlined in the unseen branch and is a no-op otherwise.
Reading the parent of a root SearchNode raises, which aborts the generator:
the events yielded before the raise are returned along with the error. -/
def edgesSeq (g : Graph) (rev : Bool) : Nat → List Nat → SearchNode → VMap →
    List (EdgeType × SearchNode) × VMap × Option String
  | 0, _, _, vm => ([], vm, none)
  | _ + 1, [], _, vm => ([], vm, none)
  | fuel + 1, c :: cs, sn, vm =>
    let snc := sn.next_node c
    match vm c with
    | none =>
      let vm1 : VMap := Function.update vm c (some .EXPLORED)
      let rc := edgesSeq g rev fuel (g.adj rev c) snc vm1
      match rc.2.2 with
      | some e => ((.TREE_EDGE, snc) :: rc.1, rc.2.1, some e)
      | none =>
        let vm3 : VMap := Function.update rc.2.1 c (some .VISITED)
        let rs := edgesSeq g rev fuel cs sn vm3
        ((.TREE_EDGE, snc) :: rc.1 ++ rs.1, rs.2.1, rs.2.2)
    | some .EXPLORED =>
      match sn.parent? with
      | none => ([], vm, some "No parent")
      | some p =>
        let t : EdgeType := if p.node = c then .TRIVIAL_BACK_EDGE else .BACK_EDGE
        let rs := edgesSeq g rev fuel cs sn vm
        ((t, snc) :: rs.1, rs.2.1, rs.2.2)
    | some .VISITED =>
      let rs := edgesSeq g rev fuel cs sn vm
      ((.CROSS_EDGE, snc) :: rs.1, rs.2.1, rs.2.2)

/-- Node.edges_iter on node n: skip if n carries any marker, else mark n in
progress, classify and explore its adjacency, and finally mark n finished
(skipped if an error aborted the generator first). -/
def Node.edges_iter (g : Graph) (rev : Bool) (fuel : Nat) (n : Nat) (sn : SearchNode)
    (vm : VMap) : List (EdgeType × SearchNode) × VMap × Option String :=
  if (vm n).isSome then ([], vm, none)
  else
    let vm1 : VMap := Function.update vm n (some .EXPLORED)
    let r := edgesSeq g rev fuel (g.adj rev n) sn vm1
    match r.2.2 with
    | some e => (r.1, r.2.1, some e)
    | none => (r.1, Function.update r.2.1 n (some .VISITED), none)

/-- The list of edge types that Graph.has_cycle counts as a cycle, built
exactly as in the source. -/
def badEdges (allowCrossEdges allowTrivialBackEdges : Bool) : List EdgeType :=
  [EdgeType.BACK_EDGE]
    ++ (if !allowTrivialBackEdges then [EdgeType.TRIVIAL_BACK_EDGE] else [])
    ++ (if !allowCrossEdges then [EdgeType.CROSS_EDGE] else [])

/-- The loop of Graph.has_cycle: one shared marker map across the whole
graph; for each registry node, lazily consume its edges_iter and stop at
the first counted edge.  An error can only surface if it occurs before any
counted edge of that node's generator, exactly as with Python's any over
the filtered generator. -/
def hasCycleAux (g : Graph) (bad : List EdgeType) : List Nat → VMap → Except String Bool
  | [], _ => .ok false
  | n :: ns, vm =>
    let r := Node.edges_iter g false g.fuelBound n (SearchNode.root n 0) vm
    if r.1.any (fun e => e.1 ∈ bad) then .ok true
    else
      match r.2.2 with
      | some e => .error e
      | none => hasCycleAux g bad ns r.2.1

def Graph.has_cycle (g : Graph) (allowCrossEdges allowTrivialBackEdges : Bool) :
    Except String Bool :=
  hasCycleAux g (badEdges allowCrossEdges allowTrivialBackEdges) g.nodes (fun _ => none)

/-- Graph.tree_root: absent on the empty graph or when the strict cycle
check (counting cross and trivial back edges) fires, else the first node in
topological order. -/
def Graph.tree_root (g : Graph) : Except String (Option Nat) :=
  if g.nodes.isEmpty then .ok none
  else
    match g.has_cycle false false with
    | .error e => .error e
    | .ok true => .ok none
    | .ok false => .ok (g.topological_order false).head?

/-- The while loop of Node.bfs_path: pop the front SearchNode, yield it, and
unless its dist equals max_depth, enqueue its not yet visited neighbours in
adjacency order, marking each visited as it is enqueued.  The fuel bounds
the number of iterations; Graph.fuelBound is always enough. -/
def bfsLoop (g : Graph) (rev : Bool) (maxDepth : Option Nat) :
    Nat → List SearchNode → List Nat → List SearchNode
  | 0, _, _ => []
  | _ + 1, [], _ => []
  | fuel + 1, sn :: q, vis =>
    if maxDepth = some sn.dist then sn :: bfsLoop g rev maxDepth fuel q vis
    else
      let st := (g.adj rev sn.node).foldl
        (fun acc c => if c ∈ acc.1 then acc else (c :: acc.1, acc.2 ++ [sn.next_node c]))
        (vis, q)
      sn :: bfsLoop g rev maxDepth fuel st.2 st.1

/-- Node.bfs_path from node r: the queue is seeded with the root SearchNode
and r is marked visited up front. -/
def Node.bfs_path (g : Graph) (rev : Bool) (maxDepth : Option Nat) (r : Nat) :
    List SearchNode :=
  bfsLoop g rev maxDepth g.fuelBound [SearchNode.root r 0] [r]

/-! Reachability, on the specification side. -/

/-- A directed walk of exactly k edges from u to v in the followed
adjacency. -/
inductive ReachN (g : Graph) (rev : Bool) : Nat → Nat → Nat → Prop where
  | refl (u : Nat) : ReachN g rev 0 u u
  | tail {k u v w : Nat} : ReachN g rev k u v → w ∈ g.adj rev v → ReachN g rev (k + 1) u w

/-- There is a directed walk (possibly empty) from u to v. -/
def Reach (g : Graph) (rev : Bool) (u v : Nat) : Prop := ∃ k, ReachN g rev k u v

/-- A directed cycle: a non-empty out-edge walk from some node of the graph
back to itself. -/
def Graph.Cyclic (g : Graph) : Prop := ∃ u ∈ g.nodes, ∃ k, ReachN g false (k + 1) u u

def Graph.Acyclic (g : Graph) : Prop := ¬g.Cyclic



/-! Specification-side notions used by the correctness lemmas. -/

/-- The chain of a SearchNode is a real walk: every link was produced by
next_node on an actual followed edge. -/
def ChainOk (g : Graph) (rev : Bool) : SearchNode → Prop
  | .root _ _ => True
  | .child n _ p => n ∈ g.adj rev p.node ∧ ChainOk g rev p

/-- The followed adjacency stays inside the registry. -/
def AdjClosed (g : Graph) (rev : Bool) : Prop :=
  ∀ n ∈ g.nodes, ∀ c ∈ g.adj rev n, c ∈ g.nodes

/-- Total loop cost of the registry nodes not yet visited. -/
def visitSum (g : Graph) (rev : Bool) (vis : List Nat) : Nat :=
  ((g.nodes.filter (fun n => decide (n ∉ vis))).map
    (fun n => 1 + (g.adj rev n).length)).sum

/-- u occurs strictly before some occurrence of v in l. -/
def Before (l : List Nat) (u v : Nat) : Prop :=
  ∃ l₁ l₂, l = l₁ ++ v :: l₂ ∧ u ∈ l₁

/-- Decreasing measure of dfsSeq: pending siblings plus the loop cost of the
unvisited registry. -/
def Graph.dfsMeasure (g : Graph) (rev : Bool) (todo vis : List Nat) : Nat :=
  todo.length + visitSum g rev vis

/-- Instrumented event of edges_iter: the classification, the SearchNode of
the edge target, and ghost copies of the marker map and of the list of
already finished nodes at the moment of classification. -/
structure EvI where
  ty : EdgeType
  sn : SearchNode
  pre : VMap
  fin : List Nat

/-- Instrumented variant of edgesSeq: computes the same events, marker map
and error (edgesSeq_proj below), and additionally threads the chronological
list of finished nodes and records the state at each classification. -/
def edgesSeqI (g : Graph) (rev : Bool) : Nat → List Nat → SearchNode → VMap → List Nat →
    List EvI × VMap × List Nat × Option String
  | 0, _, _, vm, fin => ([], vm, fin, none)
  | _ + 1, [], _, vm, fin => ([], vm, fin, none)
  | fuel + 1, c :: cs, sn, vm, fin =>
    let snc := sn.next_node c
    match vm c with
    | none =>
      let vm1 : VMap := Function.update vm c (some .EXPLORED)
      let rc := edgesSeqI g rev fuel (g.adj rev c) snc vm1 fin
      match rc.2.2.2 with
      | some e => (⟨.TREE_EDGE, snc, vm, fin⟩ :: rc.1, rc.2.1, rc.2.2.1, some e)
      | none =>
        let vm3 : VMap := Function.update rc.2.1 c (some .VISITED)
        let rs := edgesSeqI g rev fuel cs sn vm3 (rc.2.2.1 ++ [c])
        (⟨.TREE_EDGE, snc, vm, fin⟩ :: rc.1 ++ rs.1, rs.2)
    | some .EXPLORED =>
      match sn.parent? with
      | none => ([], vm, fin, some "No parent")
      | some p =>
        let t : EdgeType := if p.node = c then .TRIVIAL_BACK_EDGE else .BACK_EDGE
        let rs := edgesSeqI g rev fuel cs sn vm fin
        (⟨t, snc, vm, fin⟩ :: rs.1, rs.2)
    | some .VISITED =>
      let rs := edgesSeqI g rev fuel cs sn vm fin
      (⟨.CROSS_EDGE, snc, vm, fin⟩ :: rs.1, rs.2)

/-- Instrumented variant of Node.edges_iter. -/
def Node.edgesIterI (g : Graph) (rev : Bool) (fuel : Nat) (n : Nat) (sn : SearchNode)
    (vm : VMap) (fin : List Nat) : List EvI × VMap × List Nat × Option String :=
  if (vm n).isSome then ([], vm, fin, none)
  else
    let vm1 : VMap := Function.update vm n (some .EXPLORED)
    let r := edgesSeqI g rev fuel (g.adj rev n) sn vm1 fin
    match r.2.2.2 with
    | some e => (r.1, r.2.1, r.2.2.1, some e)
    | none => (r.1, Function.update r.2.1 n (some .VISITED), r.2.2.1 ++ [n], none)

/-- The followed adjacency never produces a self loop (the link operation
silently refuses them). -/
def SelfFree (g : Graph) (rev : Bool) : Prop := ∀ n ∈ g.nodes, n ∉ g.adj rev n

/-- Loop cost of the registry nodes with no marker yet. -/
def vmapSum (g : Graph) (rev : Bool) (vm : VMap) : Nat :=
  ((g.nodes.filter (fun n => (vm n).isNone)).map (fun n => 1 + (g.adj rev n).length)).sum

/-- Decreasing measure of the edges_iter recursion. -/
def Graph.edgesMeasure (g : Graph) (rev : Bool) (todo : List Nat) (vm : VMap) : Nat :=
  todo.length + vmapSum g rev vm

/-- The finish order respects edges: every followed edge of a finished node
leads to a node finished strictly earlier. -/
def FinP (g : Graph) (rev : Bool) (fin : List Nat) : Prop :=
  ∀ u ∈ fin, ∀ v ∈ g.adj rev u, Before fin v u

/-- What the classification of one instrumented event means: the source of
the edge is the node of usn (the SearchNode whose loop yielded it), the
recorded marker map matches the in-progress chain and the finished list,
and the edge type is exactly what the tri-state marker of the target
prescribes. -/
def EvOk (g : Graph) (rev : Bool) (e : EvI) : Prop :=
  ∃ usn : SearchNode, e.sn = usn.next_node e.sn.node ∧ ChainOk g rev usn ∧
    usn.node ∈ g.nodes ∧ e.sn.node ∈ g.nodes ∧ e.sn.node ∈ g.adj rev usn.node ∧
    (∀ n, e.pre n = some .EXPLORED ↔ n ∈ usn.chain) ∧
    (∀ n, e.pre n = some .VISITED ↔ n ∈ e.fin) ∧
    (e.ty = .TREE_EDGE ↔ e.pre e.sn.node = none) ∧
    (e.ty = .CROSS_EDGE ↔ e.pre e.sn.node = some .VISITED) ∧
    ((e.ty = .BACK_EDGE ∨ e.ty = .TRIVIAL_BACK_EDGE) ↔
      e.pre e.sn.node = some .EXPLORED) ∧
    (e.ty = .TRIVIAL_BACK_EDGE ↔
      e.pre e.sn.node = some .EXPLORED ∧
        usn.parent?.map SearchNode.node = some e.sn.node)

/-- Joint conclusions of one edgesSeqI call on a well-formed graph, relative
to its entry state: no error is raised, the in-progress set is restored to
the chain of sn, the finished markers track the finish list, markers are
never downgraded, every yielded event is correctly classified, and a run
without back edges finishes all pending targets while keeping the finish
order edge-respecting. -/
structure EdgesOut (g : Graph) (rev : Bool) (todo : List Nat) (sn : SearchNode)
    (vm : VMap) (fin : List Nat)
    (res : List EvI × VMap × List Nat × Option String) : Prop where
  err : res.2.2.2 = none
  expl : ∀ n, res.2.1 n = some .EXPLORED ↔ n ∈ sn.chain
  vis : ∀ n, res.2.1 n = some .VISITED ↔ n ∈ res.2.2.1
  ext : ∃ e, res.2.2.1 = fin ++ e
  nodup : res.2.2.1.Nodup
  stable : ∀ n, (vm n).isSome → res.2.1 n = vm n
  events : ∀ e ∈ res.1, EvOk g rev e
  noBad : (∀ e ∈ res.1, e.ty ≠ .BACK_EDGE ∧ e.ty ≠ .TRIVIAL_BACK_EDGE) →
    (∀ c ∈ todo, c ∈ res.2.2.1) ∧ (FinP g rev fin → FinP g rev res.2.2.1)

/-- Instrumented variant of hasCycleAux (projection proved below). -/
def hasCycleAuxI (g : Graph) (bad : List EdgeType) :
    List Nat → VMap → List Nat → Except String Bool
  | [], _, _ => .ok false
  | n :: ns, vm, fin =>
    let r := Node.edgesIterI g false g.fuelBound n (SearchNode.root n 0) vm fin
    if r.1.any (fun e => e.ty ∈ bad) then .ok true
    else
      match r.2.2.2 with
      | some e => .error e
      | none => hasCycleAuxI g bad ns r.2.1 r.2.2.1

/-- Conclusions of one root-level edgesIterI call, starting from a marker
map with no in-progress entries. -/
structure IterOut (g : Graph) (rev : Bool) (n : Nat) (vm : VMap) (fin : List Nat)
    (res : List EvI × VMap × List Nat × Option String) : Prop where
  err : res.2.2.2 = none
  expl : ∀ x, res.2.1 x ≠ some VisitedType.EXPLORED
  vis : ∀ x, res.2.1 x = some VisitedType.VISITED ↔ x ∈ res.2.2.1
  ext : ∃ e, res.2.2.1 = fin ++ e
  nodup : res.2.2.1.Nodup
  events : ∀ e ∈ res.1, EvOk g rev e
  noBad : (∀ e ∈ res.1, e.ty ≠ .BACK_EDGE ∧ e.ty ≠ .TRIVIAL_BACK_EDGE) →
    FinP g rev fin → FinP g rev res.2.2.1 ∧ n ∈ res.2.2.1

/-- Conclusions of one enqueueing foldl pass of the bfs loop: l is the
followed adjacency list of the dequeued SearchNode sn, (vis, q) the visited
set and pending queue on entry, st the state after the pass, and newq the
batch of SearchNodes enqueued during the pass. -/
structure BfsFoldOut (g : Graph) (rev : Bool) (sn : SearchNode) (l vis : List Nat)
    (q : List SearchNode) (st : List Nat × List SearchNode)
    (newq : List SearchNode) : Prop where
  queue : st.2 = q ++ newq
  shape : ∀ s ∈ newq, ∃ c ∈ l, s = sn.next_node c
  visMem : ∀ x, x ∈ st.1 ↔ x ∈ vis ∨ x ∈ newq.map SearchNode.node
  freshMem : ∀ x ∈ newq.map SearchNode.node, x ∉ vis
  nodupNew : (newq.map SearchNode.node).Nodup
  covered : ∀ c ∈ l, c ∈ st.1
  cost : (∀ c ∈ l, c ∈ g.nodes) → g.nodes.Nodup →
    visitSum g rev st.1 + newq.length ≤ visitSum g rev vis

/-- Conclusions of a bfs loop run without depth limit from queue q and
visited set vis, in a search rooted at r: L is the full list of yielded
SearchNodes.  The queue is drained in order, every node is yielded at most
once, a yielded node is pending on entry or freshly discovered, every
yielded dist is achieved by a real walk from r, every yielded dist
dominates some pending dist, and each followed edge out of a yielded node
leads to an initially visited node or to a yielded node of dist at most one
more. -/
structure BfsOut (g : Graph) (rev : Bool) (r : Nat) (q : List SearchNode)
    (vis : List Nat) (L : List SearchNode) : Prop where
  drain : ∃ rest, L = q ++ rest
  nodupOut : (L.map SearchNode.node).Nodup
  newOrOld : ∀ x ∈ L.map SearchNode.node, x ∈ q.map SearchNode.node ∨ x ∉ vis
  sound : ∀ s ∈ L, ReachN g rev s.dist r s.node
  lb : ∀ s ∈ L, ∃ t ∈ q, t.dist ≤ s.dist
  nbr : ∀ s ∈ L, ∀ c ∈ g.adj rev s.node, c ∈ vis ∨
    ∃ s' ∈ L, s'.node = c ∧ s'.dist ≤ s.dist + 1

/-! Concrete graphs used to exercise the algorithms on specific inputs. -/

/-- Nodes 0, 1, 2 created in this order; edges 0 -> 1, 1 -> 0, 0 -> 2 (the
strongly connected components are the pair 0, 1 and the singleton 2). -/
def gScc : Graph :=
  { nodes := [0, 1, 2],
    out := fun n => if n = 0 then [1, 2] else if n = 1 then [0] else [],
    inn := fun n => if n = 0 then [1] else if n = 1 then [0] else if n = 2 then [0] else [] }

/-- Two isolated nodes 0 and 1: an edgeless two-root forest. -/
def gTwo : Graph :=
  { nodes := [0, 1], out := fun _ => [], inn := fun _ => [] }

/-- A chain 0 -> 1 -> 2 -> 3. -/
def gChain : Graph :=
  { nodes := [0, 1, 2, 3],
    out := fun n => if n = 0 then [1] else if n = 1 then [2] else if n = 2 then [3] else [],
    inn := fun n => if n = 1 then [0] else if n = 2 then [1] else if n = 3 then [2] else [] }

/-- The out-tree 0 -> 1, 0 -> 2. -/
def gTree : Graph :=
  { nodes := [0, 1, 2],
    out := fun n => if n = 0 then [1, 2] else [],
    inn := fun n => if n = 1 then [0] else if n = 2 then [0] else [] }

/-- The two-node cycle 0 -> 1 -> 0. -/
def gCycle2 : Graph :=
  { nodes := [0, 1],
    out := fun n => if n = 0 then [1] else if n = 1 then [0] else [],
    inn := fun n => if n = 0 then [1] else if n = 1 then [0] else [] }

/-! Preservation of the adjacency invariant by each mutating operation. -/

theorem inv_new {g : Graph} (h : Inv g) {i : Nat} {g' : Graph}
    (hok : g.new i = .ok g') : Inv g' := by
  unfold Graph.new at hok
  split at hok
  · exact absurd hok (by simp)
  · rename_i hid
    injection hok with hg'
    subst hg'
    constructor <;> dsimp only
    · simpa [List.nodup_append] using ⟨h.nodesNodup, hid⟩
    · intro n hn
      rcases (by simpa using hn : n ∈ g.nodes ∨ n = i) with hn' | rfl
      · have hne : n ≠ i := fun e => hid (e ▸ hn')
        rw [Function.update_noteq hne]
        exact h.outNodup n hn'
      · simp
    · intro n hn
      rcases (by simpa using hn : n ∈ g.nodes ∨ n = i) with hn' | rfl
      · have hne : n ≠ i := fun e => hid (e ▸ hn')
        rw [Function.update_noteq hne]
        exact h.innNodup n hn'
      · simp
    · intro n hn
      rcases (by simpa using hn : n ∈ g.nodes ∨ n = i) with hn' | rfl
      · have hne : n ≠ i := fun e => hid (e ▸ hn')
        rw [Function.update_noteq hne]
        exact h.noSelfOut n hn'
      · simp
    · intro n hn
      rcases (by simpa using hn : n ∈ g.nodes ∨ n = i) with hn' | rfl
      · have hne : n ≠ i := fun e => hid (e ▸ hn')
        rw [Function.update_noteq hne]
        exact h.noSelfInn n hn'
      · simp
    · intro n hn m hm
      rcases (by simpa using hn : n ∈ g.nodes ∨ n = i) with hn' | rfl
      · have hne : n ≠ i := fun e => hid (e ▸ hn')
        rw [Function.update_noteq hne] at hm
        simpa using Or.inl (h.outMem n hn' m hm)
      · simp at hm
    · intro n hn m hm
      rcases (by simpa using hn : n ∈ g.nodes ∨ n = i) with hn' | rfl
      · have hne : n ≠ i := fun e => hid (e ▸ hn')
        rw [Function.update_noteq hne] at hm
        simpa using Or.inl (h.innMem n hn' m hm)
      · simp at hm
    · intro a ha b hb
      have ha2 : a ∈ g.nodes ∨ a = i := by simpa using ha
      have hb2 : b ∈ g.nodes ∨ b = i := by simpa using hb
      rcases ha2 with ha' | ha'
      · rcases hb2 with hb' | hb'
        · have hna : a ≠ i := fun e => hid (e ▸ ha')
          have hnb : b ≠ i := fun e => hid (e ▸ hb')
          rw [Function.update_noteq hna, Function.update_noteq hnb]
          exact h.symm a ha' b hb'
        · have hna : a ≠ i := fun e => hid (e ▸ ha')
          rw [hb', Function.update_noteq hna, Function.update_same]
          simp only [List.not_mem_nil, iff_false]
          intro hmem
          exact hid (h.outMem a ha' i hmem)
      · rcases hb2 with hb' | hb'
        · have hnb : b ≠ i := fun e => hid (e ▸ hb')
          rw [ha', Function.update_same, Function.update_noteq hnb]
          simp only [List.not_mem_nil, false_iff]
          intro hmem
          exact hid (h.innMem b hb' i hmem)
        · rw [ha', hb', Function.update_same, Function.update_same]

theorem link_nodes (g : Graph) (a b : Nat) : (Node.link g a b).nodes = g.nodes := by
  unfold Node.link
  split <;> rfl

theorem link_mem_out (g : Graph) (a b x y : Nat) :
    y ∈ (Node.link g a b).out x ↔ y ∈ g.out x ∨ (a ≠ b ∧ x = a ∧ y = b) := by
  unfold Node.link
  split <;> try dsimp only
  · rename_i hab
    subst hab
    simp
  · rename_i hab
    by_cases hx : x = a
    · subst hx
      rw [Function.update_same]
      split
      · rename_i hmem
        constructor
        · exact fun hy => Or.inl hy
        · rintro (hy | ⟨_, _, rfl⟩)
          · exact hy
          · exact hmem
      · simp [hab]
    · rw [Function.update_noteq hx]
      simp [hx]

theorem link_mem_inn (g : Graph) (a b x y : Nat) :
    x ∈ (Node.link g a b).inn y ↔ x ∈ g.inn y ∨ (a ≠ b ∧ x = a ∧ y = b) := by
  unfold Node.link
  split <;> try dsimp only
  · rename_i hab
    subst hab
    simp
  · rename_i hab
    by_cases hy : y = b
    · subst hy
      rw [Function.update_same]
      split
      · rename_i hmem
        constructor
        · exact fun hx => Or.inl hx
        · rintro (hx | ⟨_, rfl, _⟩)
          · exact hx
          · exact hmem
      · simp [hab]
    · rw [Function.update_noteq hy]
      simp [hy]

theorem link_out_nodup (g : Graph) (a b x : Nat) (h : (g.out x).Nodup) :
    ((Node.link g a b).out x).Nodup := by
  unfold Node.link
  split <;> try dsimp only
  · exact h
  · by_cases hx : x = a
    · subst hx
      rw [Function.update_same]
      split
      · exact h
      · rename_i hmem
        simpa [List.nodup_append] using ⟨h, hmem⟩
    · rwa [Function.update_noteq hx]

theorem link_inn_nodup (g : Graph) (a b y : Nat) (h : (g.inn y).Nodup) :
    ((Node.link g a b).inn y).Nodup := by
  unfold Node.link
  split <;> try dsimp only
  · exact h
  · by_cases hy : y = b
    · subst hy
      rw [Function.update_same]
      split
      · exact h
      · rename_i hmem
        simpa [List.nodup_append] using ⟨h, hmem⟩
    · rwa [Function.update_noteq hy]

theorem inv_link {g : Graph} (h : Inv g) {a b : Nat}
    (ha : a ∈ g.nodes) (hb : b ∈ g.nodes) : Inv (Node.link g a b) := by
  constructor
  · rw [link_nodes]
    exact h.nodesNodup
  · intro n hn
    exact link_out_nodup g a b n (h.outNodup n (by rwa [link_nodes] at hn))
  · intro n hn
    exact link_inn_nodup g a b n (h.innNodup n (by rwa [link_nodes] at hn))
  · intro n hn
    rw [link_nodes] at hn
    rw [link_mem_out]
    rintro (hmem | ⟨hab, rfl, rfl⟩)
    · exact h.noSelfOut n hn hmem
    · exact hab rfl
  · intro n hn
    rw [link_nodes] at hn
    rw [link_mem_inn]
    rintro (hmem | ⟨hab, rfl, rfl⟩)
    · exact h.noSelfInn n hn hmem
    · exact hab rfl
  · intro n hn m hm
    rw [link_nodes] at hn ⊢
    rw [link_mem_out] at hm
    rcases hm with hm | ⟨_, _, rfl⟩
    · exact h.outMem n hn m hm
    · exact hb
  · intro n hn m hm
    rw [link_nodes] at hn ⊢
    rw [link_mem_inn] at hm
    rcases hm with hm | ⟨_, rfl, _⟩
    · exact h.innMem n hn m hm
    · exact ha
  · intro x hx y hy
    rw [link_nodes] at hx hy
    rw [link_mem_out, link_mem_inn, h.symm x hx y hy]

theorem unlink_nodes (g : Graph) (a b : Nat) : (Node.unlink g a b).nodes = g.nodes := rfl

theorem unlink_mem_out (g : Graph) (a b x y : Nat) :
    y ∈ (Node.unlink g a b).out x ↔ y ∈ g.out x ∧ ¬(x = a ∧ y = b) := by
  unfold Node.unlink
  dsimp only
  by_cases hx : x = a
  · subst hx
    rw [Function.update_same]
    simp [List.mem_filter]
  · rw [Function.update_noteq hx]
    simp [hx]

theorem unlink_mem_inn (g : Graph) (a b x y : Nat) :
    x ∈ (Node.unlink g a b).inn y ↔ x ∈ g.inn y ∧ ¬(x = a ∧ y = b) := by
  unfold Node.unlink
  dsimp only
  by_cases hy : y = b
  · subst hy
    rw [Function.update_same]
    simp [List.mem_filter]
  · rw [Function.update_noteq hy]
    simp [hy]

theorem inv_unlink {g : Graph} (h : Inv g) (a b : Nat) : Inv (Node.unlink g a b) := by
  constructor
  · exact h.nodesNodup
  · intro n hn
    unfold Node.unlink
    dsimp only
    by_cases hx : n = a
    · subst hx
      rw [Function.update_same]
      exact (h.outNodup n hn).filter _
    · rw [Function.update_noteq hx]
      exact h.outNodup n hn
  · intro n hn
    unfold Node.unlink
    dsimp only
    by_cases hy : n = b
    · subst hy
      rw [Function.update_same]
      exact (h.innNodup n hn).filter _
    · rw [Function.update_noteq hy]
      exact h.innNodup n hn
  · intro n hn
    rw [unlink_mem_out]
    rintro ⟨hmem, _⟩
    exact h.noSelfOut n hn hmem
  · intro n hn
    rw [unlink_mem_inn]
    rintro ⟨hmem, _⟩
    exact h.noSelfInn n hn hmem
  · intro n hn m hm
    rw [unlink_mem_out] at hm
    exact h.outMem n hn m hm.1
  · intro n hn m hm
    rw [unlink_mem_inn] at hm
    exact h.innMem n hn m hm.1
  · intro x hx y hy
    rw [unlink_mem_out, unlink_mem_inn, h.symm x hx y hy]

theorem remove_nodes (g : Graph) (n : Nat) : (Node.remove g n).nodes = g.nodes.erase n := rfl

theorem remove_mem_out (g : Graph) (n x y : Nat) :
    y ∈ (Node.remove g n).out x ↔ y ∈ g.out x ∧ (x ∈ g.inn n → y ≠ n) := by
  unfold Node.remove
  dsimp only
  split
  · rename_i hx
    simp [List.mem_filter, hx]
  · rename_i hx
    simp [hx]

theorem remove_mem_inn (g : Graph) (n x y : Nat) :
    x ∈ (Node.remove g n).inn y ↔ x ∈ g.inn y ∧ (y ∈ g.out n → x ≠ n) := by
  unfold Node.remove
  dsimp only
  split
  · rename_i hy
    simp [List.mem_filter, hy]
  · rename_i hy
    simp [hy]

theorem inv_remove {g : Graph} (h : Inv g) {n : Nat} (hn : n ∈ g.nodes) :
    Inv (Node.remove g n) := by
  have hmemnodes : ∀ x, x ∈ (Node.remove g n).nodes ↔ x ∈ g.nodes ∧ x ≠ n := by
    intro x
    rw [remove_nodes]
    constructor
    · intro hx
      exact ⟨List.mem_of_mem_erase hx, (List.Nodup.mem_erase_iff h.nodesNodup).1 hx |>.1⟩
    · rintro ⟨hx, hne⟩
      exact (List.Nodup.mem_erase_iff h.nodesNodup).2 ⟨hne, hx⟩
  constructor
  · exact h.nodesNodup.erase n
  · intro x hx
    unfold Node.remove
    dsimp only
    split
    · exact (h.outNodup x ((hmemnodes x).1 hx).1).filter _
    · exact h.outNodup x ((hmemnodes x).1 hx).1
  · intro x hx
    unfold Node.remove
    dsimp only
    split
    · exact (h.innNodup x ((hmemnodes x).1 hx).1).filter _
    · exact h.innNodup x ((hmemnodes x).1 hx).1
  · intro x hx
    rw [remove_mem_out]
    rintro ⟨hmem, _⟩
    exact h.noSelfOut x ((hmemnodes x).1 hx).1 hmem
  · intro x hx
    rw [remove_mem_inn]
    rintro ⟨hmem, _⟩
    exact h.noSelfInn x ((hmemnodes x).1 hx).1 hmem
  · intro x hx m hm
    obtain ⟨hxg, hxn⟩ := (hmemnodes x).1 hx
    rw [remove_mem_out] at hm
    obtain ⟨hmem, hcond⟩ := hm
    have hmg : m ∈ g.nodes := h.outMem x hxg m hmem
    rw [hmemnodes]
    refine ⟨hmg, ?_⟩
    intro hmn
    subst hmn
    have hxin : x ∈ g.inn m := (h.symm x hxg m hmg).1 hmem
    exact hcond hxin rfl
  · intro x hx m hm
    obtain ⟨hxg, hxn⟩ := (hmemnodes x).1 hx
    rw [remove_mem_inn] at hm
    obtain ⟨hmem, hcond⟩ := hm
    have hmg : m ∈ g.nodes := h.innMem x hxg m hmem
    rw [hmemnodes]
    refine ⟨hmg, ?_⟩
    intro hmn
    subst hmn
    have hxout : x ∈ g.out m := (h.symm m hmg x hxg).2 hmem
    exact hcond hxout rfl
  · intro x hx y hy
    obtain ⟨hxg, hxn⟩ := (hmemnodes x).1 hx
    obtain ⟨hyg, hyn⟩ := (hmemnodes y).1 hy
    rw [remove_mem_out, remove_mem_inn, h.symm x hxg y hyg]
    constructor
    · rintro ⟨hmem, _⟩
      exact ⟨hmem, fun _ => hxn⟩
    · rintro ⟨hmem, _⟩
      exact ⟨hmem, fun _ => hyn⟩

theorem link_mem_out_self {g : Graph} {a b : Nat} (hab : a ≠ b) :
    b ∈ (Node.link g a b).out a := by
  rw [link_mem_out]
  exact Or.inr ⟨hab, rfl, rfl⟩

theorem link_mem_inn_self {g : Graph} {a b : Nat} (hab : a ≠ b) :
    a ∈ (Node.link g a b).inn b := by
  rw [link_mem_inn]
  exact Or.inr ⟨hab, rfl, rfl⟩

theorem link_idem (g : Graph) (a b : Nat) :
    Node.link (Node.link g a b) a b = Node.link g a b := by
  by_cases hab : a = b
  · subst hab
    show (if a = a then Node.link g a a else _) = Node.link g a a
    rw [if_pos rfl]
  · set g1 := Node.link g a b with hg1
    have hbout : b ∈ g1.out a := link_mem_out_self hab
    have hainn : a ∈ g1.inn b := link_mem_inn_self hab
    simp only [Node.link]
    rw [if_neg hab, if_pos hbout, if_pos hainn,
      Function.update_eq_self, Function.update_eq_self]

/-- World.link raises exactly on a cross-graph pair and in that case touches
no state at all (the guard precedes every mutation). -/
theorem world_link_spec (w : World) (a b : NodeRef) :
    ((World.link w a b).2.isSome ↔ a.gidx ≠ b.gidx) ∧
      ((World.link w a b).2.isSome → (World.link w a b).1 = w) := by
  unfold World.link
  by_cases h : a.gidx = b.gidx <;> simp [h]


/-! Arithmetic of the traversal measure. -/

theorem sum_split_of_mem {l : List Nat} {c : Nat} (w : Nat → Nat)
    (hl : l.Nodup) (hc : c ∈ l) :
    (l.map w).sum = w c + ((l.filter (fun x => decide (x ≠ c))).map w).sum := by
  induction l with
  | nil => cases hc
  | cons a as ih =>
    rcases List.mem_cons.1 hc with rfl | hc'
    · have hfix : (c :: as).filter (fun x => decide (x ≠ c)) = as := by
        rw [List.filter_cons_of_neg (by simp)]
        apply List.filter_eq_self.2
        intro x hx
        simp only [decide_eq_true_iff]
        rintro rfl
        exact (List.nodup_cons.1 hl).1 hx
      rw [hfix, List.map_cons, List.sum_cons]
    · have ha : ¬(a = c) := by
        rintro rfl
        exact (List.nodup_cons.1 hl).1 hc'
      rw [List.filter_cons_of_pos (by simpa using ha), List.map_cons, List.sum_cons,
        List.map_cons, List.sum_cons, ih (List.nodup_cons.1 hl).2 hc']
      omega

theorem visitSum_mono {g : Graph} {rev : Bool} {vis vis' : List Nat}
    (h : ∀ x ∈ vis, x ∈ vis') : visitSum g rev vis' ≤ visitSum g rev vis := by
  unfold visitSum
  apply List.Sublist.sum_le_sum _ (by intro x hx; omega)
  apply List.Sublist.map
  apply List.monotone_filter_right
  intro a ha
  simp only [decide_eq_true_iff] at ha ⊢
  exact fun hmem => ha (h a hmem)

theorem visitSum_cons {g : Graph} {rev : Bool} {vis : List Nat} {c : Nat}
    (hN : g.nodes.Nodup) (hc : c ∈ g.nodes) (hcv : c ∉ vis) :
    visitSum g rev vis = 1 + (g.adj rev c).length + visitSum g rev (c :: vis) := by
  unfold visitSum
  have hcf : c ∈ g.nodes.filter (fun n => decide (n ∉ vis)) := by
    rw [List.mem_filter]
    exact ⟨hc, by simpa using hcv⟩
  have hnf : (g.nodes.filter (fun n => decide (n ∉ vis))).Nodup := hN.filter _
  have hff : g.nodes.filter (fun n => decide (n ∉ c :: vis)) =
      (g.nodes.filter (fun n => decide (n ∉ vis))).filter (fun x => decide (x ≠ c)) := by
    rw [List.filter_filter]
    apply List.filter_congr
    intro x hx
    rcases Decidable.em (x = c) with h1 | h1 <;> rcases Decidable.em (x ∈ vis) with h2 | h2 <;>
      simp [h1, h2]
  rw [hff, sum_split_of_mem (fun n => 1 + (g.adj rev n).length) hnf hcf]

theorem dfsMeasure_enter {g : Graph} {rev : Bool} {vis : List Nat} {c : Nat}
    (cs : List Nat) (hN : g.nodes.Nodup) (hc : c ∈ g.nodes) (hcv : c ∉ vis) :
    g.dfsMeasure rev (g.adj rev c) (c :: vis) + 2 ≤ g.dfsMeasure rev (c :: cs) vis := by
  unfold Graph.dfsMeasure
  rw [visitSum_cons hN hc hcv]
  simp only [List.length_cons]
  omega

theorem dfsMeasure_mono {g : Graph} {rev : Bool} {todo vis vis' : List Nat}
    (h : ∀ x ∈ vis, x ∈ vis') :
    g.dfsMeasure rev todo vis' ≤ g.dfsMeasure rev todo vis := by
  unfold Graph.dfsMeasure
  have : visitSum g rev vis' ≤ visitSum g rev vis := visitSum_mono h
  omega

theorem visitSum_le {g : Graph} (rev : Bool) (vis : List Nat) :
    visitSum g rev vis + 1 ≤ g.fuelBound := by
  unfold visitSum Graph.fuelBound
  have h1 : ((g.nodes.filter (fun n => decide (n ∉ vis))).map
      (fun n => 1 + (g.adj rev n).length)).sum ≤
      (g.nodes.map (fun n => 1 + (g.adj rev n).length)).sum := by
    apply List.Sublist.sum_le_sum _ (by intro x hx; omega)
    exact List.Sublist.map _ (List.filter_sublist _)
  have h2 : (g.nodes.map (fun n => 1 + (g.adj rev n).length)).sum ≤
      (g.nodes.map (fun n => 1 + (g.out n).length + (g.inn n).length)).sum := by
    apply List.sum_le_sum
    intro i hi
    unfold Graph.adj
    cases rev <;> simp <;> omega
  omega

theorem dfsMeasure_entry {g : Graph} {rev : Bool} {n : Nat} (vis : List Nat)
    (hN : g.nodes.Nodup) (hn : n ∈ g.nodes) :
    g.dfsMeasure rev (g.adj rev n) (n :: vis) + 1 ≤ g.fuelBound := by
  unfold Graph.dfsMeasure
  have h1 : visitSum g rev (n :: vis) ≤ visitSum g rev [n] := by
    apply visitSum_mono
    intro x hx
    simp only [List.mem_singleton] at hx
    simp [hx]
  have h2 : visitSum g rev [] = 1 + (g.adj rev n).length + visitSum g rev [n] :=
    visitSum_cons hN hn (by simp)
  have h3 : visitSum g rev [] + 1 ≤ g.fuelBound := visitSum_le rev []
  omega

/-! Unfolding equations and invariants of the dfs recursion. -/

theorem dfsSeq_zero (g : Graph) (rev : Bool) (todo : List Nat) (sn : SearchNode)
    (vis : List Nat) : dfsSeq g rev 0 todo sn vis = ([], vis) := by
  cases todo <;> rfl

theorem dfsSeq_nil (g : Graph) (rev : Bool) (fuel : Nat) (sn : SearchNode)
    (vis : List Nat) : dfsSeq g rev fuel [] sn vis = ([], vis) := by
  cases fuel <;> rfl

theorem dfsSeq_cons_mem {g : Graph} {rev : Bool} {fuel : Nat} {c : Nat} {cs : List Nat}
    {sn : SearchNode} {vis : List Nat} (hc : c ∈ vis) :
    dfsSeq g rev (fuel + 1) (c :: cs) sn vis = dfsSeq g rev fuel cs sn vis := by
  simp [dfsSeq, hc]

theorem dfsSeq_cons_new {g : Graph} {rev : Bool} {fuel : Nat} {c : Nat} {cs : List Nat}
    {sn : SearchNode} {vis : List Nat} (hc : c ∉ vis) :
    dfsSeq g rev (fuel + 1) (c :: cs) sn vis =
      ((dfsSeq g rev fuel (g.adj rev c) (sn.next_node c) (c :: vis)).1 ++ [sn.next_node c] ++
        (dfsSeq g rev fuel cs sn
          (dfsSeq g rev fuel (g.adj rev c) (sn.next_node c) (c :: vis)).2).1,
       (dfsSeq g rev fuel cs sn
          (dfsSeq g rev fuel (g.adj rev c) (sn.next_node c) (c :: vis)).2).2) := by
  simp [dfsSeq, hc]

theorem node_next (sn : SearchNode) (c : Nat) : (sn.next_node c).node = c := rfl

theorem dfsSeq_state (g : Graph) (rev : Bool) (fuel : Nat) (todo : List Nat)
    (sn : SearchNode) (vis : List Nat) :
    (∀ x, x ∈ (dfsSeq g rev fuel todo sn vis).2 ↔
        x ∈ vis ∨ x ∈ (dfsSeq g rev fuel todo sn vis).1.map SearchNode.node) ∧
      (∀ x ∈ (dfsSeq g rev fuel todo sn vis).1.map SearchNode.node, x ∉ vis) ∧
      ((dfsSeq g rev fuel todo sn vis).1.map SearchNode.node).Nodup := by
  induction fuel generalizing todo sn vis with
  | zero =>
    rw [dfsSeq_zero]
    simp
  | succ fuel ih =>
    cases todo with
    | nil =>
      rw [dfsSeq_nil]
      simp
    | cons c cs =>
      by_cases hc : c ∈ vis
      · rw [dfsSeq_cons_mem hc]
        exact ih cs sn vis
      · rw [dfsSeq_cons_new hc]
        obtain ⟨ihc1, ihc2, ihc3⟩ := ih (g.adj rev c) (sn.next_node c) (c :: vis)
        obtain ⟨ihs1, ihs2, ihs3⟩ :=
          ih cs sn (dfsSeq g rev fuel (g.adj rev c) (sn.next_node c) (c :: vis)).2
        have hcin : c ∈ (dfsSeq g rev fuel (g.adj rev c) (sn.next_node c) (c :: vis)).2 :=
          (ihc1 c).2 (Or.inl (List.mem_cons_self c _))
        refine ⟨?_, ?_, ?_⟩
        · intro x
          rw [ihs1, ihc1]
          simp only [List.map_append, List.map_cons, List.map_nil, List.mem_append,
            List.mem_cons, List.not_mem_nil, or_false, node_next]
          tauto
        · intro x hx
          simp only [List.map_append, List.map_cons, List.map_nil, List.mem_append,
            List.mem_cons, List.not_mem_nil, or_false, node_next] at hx
          rcases hx with (hx | rfl) | hx
          · exact fun hv => ihc2 x hx (List.mem_cons_of_mem _ hv)
          · exact hc
          · intro hv
            exact ihs2 x hx ((ihc1 x).2 (Or.inl (List.mem_cons_of_mem _ hv)))
        · simp only [List.map_append, List.map_cons, List.map_nil, node_next]
          rw [List.nodup_append, List.nodup_append]
          refine ⟨⟨ihc3, List.nodup_singleton c, ?_⟩, ihs3, ?_⟩
          · intro x hx hx2
            rw [List.mem_singleton] at hx2
            subst hx2
            exact ihc2 x hx (List.mem_cons_self _ _)
          · intro x hx hx2
            rw [List.mem_append] at hx
            have hxin : x ∈ (dfsSeq g rev fuel (g.adj rev c) (sn.next_node c) (c :: vis)).2 := by
              rcases hx with hx | hx
              · exact (ihc1 x).2 (Or.inr hx)
              · rw [List.mem_singleton] at hx
                subst hx
                exact hcin
            exact ihs2 x hx2 hxin

theorem before_append_left {l₁ l₂ : List Nat} {u v : Nat} (h : Before l₁ u v) :
    Before (l₁ ++ l₂) u v := by
  obtain ⟨m₁, m₂, rfl, hu⟩ := h
  exact ⟨m₁, m₂ ++ l₂, by simp, hu⟩

theorem before_append_right {l₁ l₂ : List Nat} {u v : Nat} (h : Before l₂ u v) :
    Before (l₁ ++ l₂) u v := by
  obtain ⟨m₁, m₂, rfl, hu⟩ := h
  exact ⟨l₁ ++ m₁, m₂, by simp, by simp [hu]⟩

theorem before_of_mem {l₁ l₂ : List Nat} {u v : Nat} (hu : u ∈ l₁) (hv : v ∈ l₂) :
    Before (l₁ ++ l₂) u v := by
  obtain ⟨m₁, m₂, rfl⟩ := List.append_of_mem hv
  exact ⟨l₁ ++ m₁, m₂, by simp, by simp [hu]⟩

theorem before_indexOf {l : List Nat} {u v : Nat} (hnd : l.Nodup) (h : Before l u v) :
    l.indexOf u < l.indexOf v := by
  obtain ⟨l₁, l₂, rfl, hu⟩ := h
  have hv1 : v ∉ l₁ := by
    rw [List.nodup_append] at hnd
    intro hv
    exact hnd.2.2 hv (List.mem_cons_self _ _)
  rw [List.indexOf_append_of_mem hu, List.indexOf_append_of_not_mem hv1,
    List.indexOf_cons_self]
  have := List.indexOf_lt_length.2 hu
  omega

theorem dfsSeq_mem_nodes {g : Graph} {rev : Bool} (hclosed : AdjClosed g rev) (fuel : Nat) :
    ∀ (todo : List Nat) (sn : SearchNode) (vis : List Nat),
      (∀ x ∈ todo, x ∈ g.nodes) →
      ∀ x ∈ (dfsSeq g rev fuel todo sn vis).1.map SearchNode.node, x ∈ g.nodes := by
  induction fuel with
  | zero =>
    intro todo sn vis htodo x hx
    rw [dfsSeq_zero] at hx
    simp at hx
  | succ fuel ih =>
    intro todo sn vis htodo x hx
    cases todo with
    | nil =>
      rw [dfsSeq_nil] at hx
      simp at hx
    | cons c cs =>
      have hcN : c ∈ g.nodes := htodo c (List.mem_cons_self _ _)
      have hcs : ∀ y ∈ cs, y ∈ g.nodes := fun y hy => htodo y (List.mem_cons_of_mem _ hy)
      by_cases hc : c ∈ vis
      · rw [dfsSeq_cons_mem hc] at hx
        exact ih cs sn vis hcs x hx
      · rw [dfsSeq_cons_new hc] at hx
        simp only [List.map_append, List.map_cons, List.map_nil, List.mem_append,
          List.mem_cons, List.not_mem_nil, or_false, node_next] at hx
        rcases hx with (hx | rfl) | hx
        · exact ih (g.adj rev c) (sn.next_node c) (c :: vis) (hclosed c hcN) x hx
        · exact hcN
        · exact ih cs sn _ hcs x hx

theorem dfsSeq_complete {g : Graph} {rev : Bool} (hN : g.nodes.Nodup) (fuel : Nat) :
    ∀ (todo : List Nat) (sn : SearchNode) (vis : List Nat),
      (∀ x ∈ todo, x ∈ g.nodes) → g.dfsMeasure rev todo vis ≤ fuel →
      ∀ c ∈ todo, c ∈ (dfsSeq g rev fuel todo sn vis).2 := by
  induction fuel with
  | zero =>
    intro todo sn vis htodo hfuel c hcmem
    have hlen : todo.length = 0 := by
      unfold Graph.dfsMeasure at hfuel
      omega
    rw [List.length_eq_zero] at hlen
    subst hlen
    cases hcmem
  | succ fuel ih =>
    intro todo sn vis htodo hfuel c hcmem
    cases todo with
    | nil => cases hcmem
    | cons c0 cs =>
      have hc0N : c0 ∈ g.nodes := htodo c0 (List.mem_cons_self _ _)
      have hcs : ∀ y ∈ cs, y ∈ g.nodes := fun y hy => htodo y (List.mem_cons_of_mem _ hy)
      have htail : g.dfsMeasure rev cs vis + 1 = g.dfsMeasure rev (c0 :: cs) vis := by
        unfold Graph.dfsMeasure
        simp [Nat.add_right_comm]
      by_cases hc0 : c0 ∈ vis
      · rw [dfsSeq_cons_mem hc0]
        rcases List.mem_cons.1 hcmem with rfl | hcmem'
        · exact ((dfsSeq_state g rev fuel cs sn vis).1 c).2 (Or.inl hc0)
        · exact ih cs sn vis hcs (by omega) c hcmem'
      · rw [dfsSeq_cons_new hc0]
        dsimp only
        have hcin : c0 ∈ (dfsSeq g rev fuel (g.adj rev c0) (sn.next_node c0) (c0 :: vis)).2 :=
          ((dfsSeq_state g rev fuel _ _ _).1 c0).2 (Or.inl (List.mem_cons_self c0 _))
        have hsub : ∀ x ∈ vis,
            x ∈ (dfsSeq g rev fuel (g.adj rev c0) (sn.next_node c0) (c0 :: vis)).2 :=
          fun x hx => ((dfsSeq_state g rev fuel _ _ _).1 x).2 (Or.inl (List.mem_cons_of_mem _ hx))
        have hmeas : g.dfsMeasure rev cs
            (dfsSeq g rev fuel (g.adj rev c0) (sn.next_node c0) (c0 :: vis)).2 ≤ fuel := by
          have hmono : g.dfsMeasure rev cs
              (dfsSeq g rev fuel (g.adj rev c0) (sn.next_node c0) (c0 :: vis)).2 ≤
              g.dfsMeasure rev cs vis := dfsMeasure_mono hsub
          omega
        rcases List.mem_cons.1 hcmem with rfl | hcmem'
        · exact ((dfsSeq_state g rev fuel cs sn _).1 c).2 (Or.inl hcin)
        · exact ih cs sn _ hcs hmeas c hcmem'

theorem chain_next (sn : SearchNode) (c : Nat) : (sn.next_node c).chain = c :: sn.chain := rfl

theorem dfsSeq_suffix {g : Graph} {rev : Bool} (fuel : Nat) :
    ∀ (todo : List Nat) (sn : SearchNode) (vis : List Nat),
      ∀ s ∈ (dfsSeq g rev fuel todo sn vis).1,
        sn.chain <:+ s.chain ∧ sn.chain.length < s.chain.length := by
  induction fuel with
  | zero =>
    intro todo sn vis s hs
    rw [dfsSeq_zero] at hs
    cases hs
  | succ fuel ih =>
    intro todo sn vis s hs
    cases todo with
    | nil =>
      rw [dfsSeq_nil] at hs
      cases hs
    | cons c cs =>
      by_cases hc : c ∈ vis
      · rw [dfsSeq_cons_mem hc] at hs
        exact ih cs sn vis s hs
      · rw [dfsSeq_cons_new hc] at hs
        simp only [List.mem_append, List.mem_cons, List.not_mem_nil, or_false] at hs
        rcases hs with (hs | rfl) | hs
        · obtain ⟨hsuf, hlen⟩ := ih (g.adj rev c) (sn.next_node c) (c :: vis) s hs
          rw [chain_next] at hsuf hlen
          rw [List.length_cons] at hlen
          exact ⟨(List.suffix_cons c sn.chain).trans hsuf, by omega⟩
        · rw [chain_next]
          exact ⟨List.suffix_cons c sn.chain, by simp⟩
        · exact ih cs sn _ s hs

theorem chainOk_next {g : Graph} {rev : Bool} {sn : SearchNode} {c : Nat} :
    ChainOk g rev (sn.next_node c) ↔ c ∈ g.adj rev sn.node ∧ ChainOk g rev sn :=
  Iff.rfl

theorem dfsSeq_chainOk {g : Graph} {rev : Bool} (fuel : Nat) :
    ∀ (todo : List Nat) (sn : SearchNode) (vis : List Nat),
      ChainOk g rev sn → (∀ x ∈ todo, x ∈ g.adj rev sn.node) →
      ∀ s ∈ (dfsSeq g rev fuel todo sn vis).1, ChainOk g rev s := by
  induction fuel with
  | zero =>
    intro todo sn vis hok htodo s hs
    rw [dfsSeq_zero] at hs
    cases hs
  | succ fuel ih =>
    intro todo sn vis hok htodo s hs
    cases todo with
    | nil =>
      rw [dfsSeq_nil] at hs
      cases hs
    | cons c cs =>
      have hcadj : c ∈ g.adj rev sn.node := htodo c (List.mem_cons_self _ _)
      have hcs : ∀ y ∈ cs, y ∈ g.adj rev sn.node := fun y hy => htodo y (List.mem_cons_of_mem _ hy)
      by_cases hc : c ∈ vis
      · rw [dfsSeq_cons_mem hc] at hs
        exact ih cs sn vis hok hcs s hs
      · rw [dfsSeq_cons_new hc] at hs
        simp only [List.mem_append, List.mem_cons, List.not_mem_nil, or_false] at hs
        rcases hs with (hs | rfl) | hs
        · exact ih (g.adj rev c) (sn.next_node c) (c :: vis)
            (chainOk_next.2 ⟨hcadj, hok⟩) (fun y hy => hy) s hs
        · exact chainOk_next.2 ⟨hcadj, hok⟩
        · exact ih cs sn _ hok hcs s hs

theorem chain_reach {g : Graph} {rev : Bool} :
    ∀ (s : SearchNode), ChainOk g rev s → ∀ u ∈ s.chain, Reach g rev u s.node := by
  intro s
  induction s with
  | root n d =>
    intro _ u hu
    have : u = n := by simpa [SearchNode.chain] using hu
    subst this
    exact ⟨0, ReachN.refl u⟩
  | child n d p ihp =>
    intro hok u hu
    simp only [SearchNode.chain, List.mem_cons] at hu
    rcases hu with rfl | hu
    · exact ⟨0, ReachN.refl u⟩
    · obtain ⟨k, hk⟩ := ihp hok.2 u hu
      exact ⟨k + 1, ReachN.tail hk hok.1⟩

theorem dfsSeq_edge {g : Graph} {rev : Bool} (hN : g.nodes.Nodup)
    (hclosed : AdjClosed g rev) (fuel : Nat) :
    ∀ (todo : List Nat) (sn : SearchNode) (vis : List Nat),
      (∀ x ∈ todo, x ∈ g.nodes) → g.dfsMeasure rev todo vis ≤ fuel →
      ∀ s ∈ (dfsSeq g rev fuel todo sn vis).1, ∀ u ∈ g.adj rev s.node,
        u ∈ vis ∨ Before ((dfsSeq g rev fuel todo sn vis).1.map SearchNode.node) u s.node ∨
          u ∈ s.chain := by
  induction fuel with
  | zero =>
    intro todo sn vis htodo hfuel s hs
    rw [dfsSeq_zero] at hs
    cases hs
  | succ fuel ih =>
    intro todo sn vis htodo hfuel s hs u hu
    cases todo with
    | nil =>
      rw [dfsSeq_nil] at hs
      cases hs
    | cons c cs =>
      have hcN : c ∈ g.nodes := htodo c (List.mem_cons_self _ _)
      have hcs : ∀ y ∈ cs, y ∈ g.nodes := fun y hy => htodo y (List.mem_cons_of_mem _ hy)
      have htail : g.dfsMeasure rev cs vis + 1 = g.dfsMeasure rev (c :: cs) vis := by
        unfold Graph.dfsMeasure
        simp [Nat.add_right_comm]
      by_cases hc : c ∈ vis
      · rw [dfsSeq_cons_mem hc] at hs ⊢
        exact ih cs sn vis hcs (by omega) s hs u hu
      · rw [dfsSeq_cons_new hc] at hs ⊢
        dsimp only at hs ⊢
        have hmeasc : g.dfsMeasure rev (g.adj rev c) (c :: vis) ≤ fuel := by
          have : g.dfsMeasure rev (g.adj rev c) (c :: vis) + 2 ≤
              g.dfsMeasure rev (c :: cs) vis := dfsMeasure_enter cs hN hcN hc
          omega
        have hsub : ∀ x ∈ vis,
            x ∈ (dfsSeq g rev fuel (g.adj rev c) (sn.next_node c) (c :: vis)).2 :=
          fun x hx => ((dfsSeq_state g rev fuel _ _ _).1 x).2 (Or.inl (List.mem_cons_of_mem _ hx))
        have hcin : c ∈ (dfsSeq g rev fuel (g.adj rev c) (sn.next_node c) (c :: vis)).2 :=
          ((dfsSeq_state g rev fuel _ _ _).1 c).2 (Or.inl (List.mem_cons_self c _))
        have hmeass : g.dfsMeasure rev cs
            (dfsSeq g rev fuel (g.adj rev c) (sn.next_node c) (c :: vis)).2 ≤ fuel := by
          have hmono : g.dfsMeasure rev cs
              (dfsSeq g rev fuel (g.adj rev c) (sn.next_node c) (c :: vis)).2 ≤
              g.dfsMeasure rev cs vis := dfsMeasure_mono hsub
          omega
        have hshape : ((dfsSeq g rev fuel (g.adj rev c) (sn.next_node c) (c :: vis)).1 ++
              [sn.next_node c] ++
              (dfsSeq g rev fuel cs sn
                (dfsSeq g rev fuel (g.adj rev c) (sn.next_node c) (c :: vis)).2).1).map
                  SearchNode.node =
            ((dfsSeq g rev fuel (g.adj rev c) (sn.next_node c) (c :: vis)).1.map
                SearchNode.node ++ [c]) ++
              (dfsSeq g rev fuel cs sn
                (dfsSeq g rev fuel (g.adj rev c) (sn.next_node c) (c :: vis)).2).1.map
                  SearchNode.node := by
          simp [node_next]
        rw [hshape]
        simp only [List.mem_append, List.mem_cons, List.not_mem_nil, or_false] at hs
        rcases hs with (hs | rfl) | hs
        · rcases ih (g.adj rev c) (sn.next_node c) (c :: vis) (hclosed c hcN) hmeasc s hs u hu
            with hv | hb | hchain
          · rcases List.mem_cons.1 hv with rfl | hv'
            · refine Or.inr (Or.inr ?_)
              have hsuf := (dfsSeq_suffix fuel (g.adj rev u) (sn.next_node u) (u :: vis) s hs).1
              rw [chain_next] at hsuf
              exact hsuf.subset (List.mem_cons_self _ _)
            · exact Or.inl hv'
          · refine Or.inr (Or.inl ?_)
            rw [List.append_assoc]
            exact before_append_left hb
          · exact Or.inr (Or.inr hchain)
        · rw [node_next] at hu
          rcases ((dfsSeq_state g rev fuel _ _ _).1 u).1
              (dfsSeq_complete hN fuel (g.adj rev c) (sn.next_node c) (c :: vis)
                (hclosed c hcN) hmeasc u hu) with hv | hyield
          · rcases List.mem_cons.1 hv with rfl | hv'
            · refine Or.inr (Or.inr ?_)
              rw [chain_next]
              exact List.mem_cons_self _ _
            · exact Or.inl hv'
          · refine Or.inr (Or.inl ?_)
            rw [node_next]
            exact before_append_left (before_of_mem hyield (by simp))
        · rcases ih cs sn (dfsSeq g rev fuel (g.adj rev c) (sn.next_node c) (c :: vis)).2
            hcs hmeass s hs u hu with hv | hb | hchain
          · rcases ((dfsSeq_state g rev fuel _ _ _).1 u).1 hv with hv2 | hyield
            · rcases List.mem_cons.1 hv2 with rfl | hv'
              · refine Or.inr (Or.inl ?_)
                exact before_of_mem (by simp)
                  (List.mem_map_of_mem SearchNode.node hs)
              · exact Or.inl hv'
            · refine Or.inr (Or.inl ?_)
              exact before_of_mem (by simp [hyield])
                (List.mem_map_of_mem SearchNode.node hs)
          · refine Or.inr (Or.inl ?_)
            exact before_append_right hb
          · exact Or.inr (Or.inr hchain)

theorem node_mem_chain (sn : SearchNode) : sn.node ∈ sn.chain := by
  cases sn <;> simp [SearchNode.chain, SearchNode.node]

theorem dfs_path_state (g : Graph) (rev : Bool) (fuel : Nat) (n : Nat) (sn : SearchNode)
    (vis : List Nat) (hsn : sn.node = n) :
    (∀ x, x ∈ (Node.dfs_path g rev fuel n sn vis).2 ↔
        x ∈ vis ∨ x ∈ (Node.dfs_path g rev fuel n sn vis).1.map SearchNode.node) ∧
      (∀ x ∈ (Node.dfs_path g rev fuel n sn vis).1.map SearchNode.node, x ∉ vis) ∧
      ((Node.dfs_path g rev fuel n sn vis).1.map SearchNode.node).Nodup := by
  unfold Node.dfs_path
  by_cases hn : n ∈ vis
  · rw [if_pos hn]
    simp
  · rw [if_neg hn]
    dsimp only
    obtain ⟨h1, h2, h3⟩ := dfsSeq_state g rev fuel (g.adj rev n) sn (n :: vis)
    refine ⟨?_, ?_, ?_⟩
    · intro x
      rw [h1 x]
      simp only [List.map_append, List.map_cons, List.map_nil, List.mem_append,
        List.mem_cons, List.not_mem_nil, or_false, hsn]
      tauto
    · intro x hx
      simp only [List.map_append, List.map_cons, List.map_nil, List.mem_append,
        List.mem_cons, List.not_mem_nil, or_false, hsn] at hx
      rcases hx with hx | rfl
      · exact fun hv => h2 x hx (List.mem_cons_of_mem _ hv)
      · exact hn
    · simp only [List.map_append, List.map_cons, List.map_nil, hsn]
      rw [List.nodup_append]
      refine ⟨h3, List.nodup_singleton n, ?_⟩
      intro x hx hx2
      rw [List.mem_singleton] at hx2
      subst hx2
      exact h2 x hx (List.mem_cons_self _ _)

theorem dfs_path_mem_nodes {g : Graph} {rev : Bool} (hclosed : AdjClosed g rev) (fuel : Nat)
    {n : Nat} (sn : SearchNode) (vis : List Nat) (hn : n ∈ g.nodes) (hsn : sn.node = n) :
    ∀ x ∈ (Node.dfs_path g rev fuel n sn vis).1.map SearchNode.node, x ∈ g.nodes := by
  unfold Node.dfs_path
  by_cases hnv : n ∈ vis
  · rw [if_pos hnv]
    simp
  · rw [if_neg hnv]
    dsimp only
    intro x hx
    simp only [List.map_append, List.map_cons, List.map_nil, List.mem_append,
      List.mem_cons, List.not_mem_nil, or_false, hsn] at hx
    rcases hx with hx | rfl
    · exact dfsSeq_mem_nodes hclosed fuel (g.adj rev n) sn (n :: vis) (hclosed n hn) x hx
    · exact hn

theorem dfs_path_visits {g : Graph} {rev : Bool} (fuel : Nat) (n : Nat) (sn : SearchNode)
    (vis : List Nat) : n ∈ (Node.dfs_path g rev fuel n sn vis).2 := by
  unfold Node.dfs_path
  by_cases hnv : n ∈ vis
  · rw [if_pos hnv]
    exact hnv
  · rw [if_neg hnv]
    dsimp only
    exact ((dfsSeq_state g rev fuel _ _ _).1 n).2 (Or.inl (List.mem_cons_self n _))

theorem dfs_path_chainOk {g : Graph} {rev : Bool} (fuel : Nat) {n : Nat} {sn : SearchNode}
    (vis : List Nat) (hsn : sn.node = n) (hok : ChainOk g rev sn) :
    ∀ s ∈ (Node.dfs_path g rev fuel n sn vis).1, ChainOk g rev s := by
  unfold Node.dfs_path
  by_cases hnv : n ∈ vis
  · rw [if_pos hnv]
    intro s hs
    cases hs
  · rw [if_neg hnv]
    dsimp only
    intro s hs
    rcases List.mem_append.1 hs with hs | hs
    · exact dfsSeq_chainOk fuel (g.adj rev n) sn (n :: vis) hok
        (fun x hx => by rwa [hsn]) s hs
    · rw [List.mem_singleton] at hs
      subst hs
      exact hok

theorem dfs_path_edge {g : Graph} {rev : Bool} (hN : g.nodes.Nodup)
    (hclosed : AdjClosed g rev) (fuel : Nat) {n : Nat} {sn : SearchNode} {vis : List Nat}
    (hn : n ∈ g.nodes) (hsn : sn.node = n)
    (hfuel : g.dfsMeasure rev (g.adj rev n) (n :: vis) ≤ fuel) :
    ∀ s ∈ (Node.dfs_path g rev fuel n sn vis).1, ∀ u ∈ g.adj rev s.node,
      u ∈ vis ∨ Before ((Node.dfs_path g rev fuel n sn vis).1.map SearchNode.node) u s.node ∨
        u ∈ s.chain := by
  unfold Node.dfs_path
  by_cases hnv : n ∈ vis
  · rw [if_pos hnv]
    intro s hs
    cases hs
  · rw [if_neg hnv]
    dsimp only
    intro s hs u hu
    have hshape : ((dfsSeq g rev fuel (g.adj rev n) sn (n :: vis)).1 ++ [sn]).map
          SearchNode.node =
        (dfsSeq g rev fuel (g.adj rev n) sn (n :: vis)).1.map SearchNode.node ++ [n] := by
      simp [hsn]
    rw [hshape]
    rcases List.mem_append.1 hs with hs | hs
    · rcases dfsSeq_edge hN hclosed fuel (g.adj rev n) sn (n :: vis) (hclosed n hn) hfuel
        s hs u hu with hv | hb | hchain
      · rcases List.mem_cons.1 hv with rfl | hv'
        · refine Or.inr (Or.inr ?_)
          have hsuf := (dfsSeq_suffix fuel (g.adj rev u) sn (u :: vis) s hs).1
          exact hsuf.subset (hsn ▸ node_mem_chain sn)
        · exact Or.inl hv'
      · exact Or.inr (Or.inl (before_append_left hb))
      · exact Or.inr (Or.inr hchain)
    · rw [List.mem_singleton] at hs
      subst hs
      rw [hsn] at hu
      rcases ((dfsSeq_state g rev fuel _ _ _).1 u).1
          (dfsSeq_complete hN fuel (g.adj rev n) s (n :: vis) (hclosed n hn) hfuel u hu)
        with hv | hyield
      · rcases List.mem_cons.1 hv with rfl | hv'
        · exact Or.inr (Or.inr (hsn ▸ node_mem_chain s))
        · exact Or.inl hv'
      · exact Or.inr (Or.inl (before_of_mem hyield (by simp [hsn])))

theorem topoAux_cons (g : Graph) (reverse : Bool) (r : Nat) (rs vis : List Nat) :
    topoAux g reverse (r :: rs) vis =
      ((Node.dfs_path g (!reverse) g.fuelBound r (SearchNode.root r 0) vis).1.map
          SearchNode.node ++
        (topoAux g reverse rs
          (Node.dfs_path g (!reverse) g.fuelBound r (SearchNode.root r 0) vis).2).1,
       (topoAux g reverse rs
          (Node.dfs_path g (!reverse) g.fuelBound r (SearchNode.root r 0) vis).2).2) := by
  simp [topoAux]

theorem inv_adjClosed {g : Graph} (hInv : Inv g) (rev : Bool) : AdjClosed g rev := by
  intro n hn c hc
  cases rev
  · exact hInv.outMem n hn c (by simpa [Graph.adj] using hc)
  · exact hInv.innMem n hn c (by simpa [Graph.adj] using hc)

theorem topoAux_state {g : Graph} {reverse : Bool} (hN : g.nodes.Nodup)
    (hclosed : AdjClosed g (!reverse)) :
    ∀ (roots vis : List Nat), (∀ x ∈ roots, x ∈ g.nodes) →
      (∀ x, x ∈ (topoAux g reverse roots vis).2 ↔
          x ∈ vis ∨ x ∈ (topoAux g reverse roots vis).1) ∧
        (∀ x ∈ (topoAux g reverse roots vis).1, x ∉ vis) ∧
        (topoAux g reverse roots vis).1.Nodup ∧
        (∀ x ∈ (topoAux g reverse roots vis).1, x ∈ g.nodes) ∧
        (∀ r ∈ roots, r ∈ (topoAux g reverse roots vis).2) := by
  intro roots
  induction roots with
  | nil =>
    intro vis hroots
    simp [topoAux]
  | cons r rs ih =>
    intro vis hroots
    have hrN : r ∈ g.nodes := hroots r (List.mem_cons_self _ _)
    have hrs : ∀ x ∈ rs, x ∈ g.nodes := fun x hx => hroots x (List.mem_cons_of_mem _ hx)
    obtain ⟨w1, w2, w3⟩ := dfs_path_state g (!reverse) g.fuelBound r (SearchNode.root r 0) vis rfl
    have wN := dfs_path_mem_nodes hclosed g.fuelBound (SearchNode.root r 0) vis hrN rfl
    obtain ⟨i1, i2, i3, i4, i5⟩ :=
      ih (Node.dfs_path g (!reverse) g.fuelBound r (SearchNode.root r 0) vis).2 hrs
    rw [topoAux_cons]
    dsimp only
    refine ⟨?_, ?_, ?_, ?_, ?_⟩
    · intro x
      rw [i1 x, w1 x]
      simp only [List.mem_append]
      tauto
    · intro x hx
      rcases List.mem_append.1 hx with hx | hx
      · exact w2 x hx
      · intro hv
        exact i2 x hx ((w1 x).2 (Or.inl hv))
    · rw [List.nodup_append]
      refine ⟨w3, i3, ?_⟩
      intro x hx hx2
      exact i2 x hx2 ((w1 x).2 (Or.inr hx))
    · intro x hx
      rcases List.mem_append.1 hx with hx | hx
      · exact wN x hx
      · exact i4 x hx
    · intro r0 hr0
      rcases List.mem_cons.1 hr0 with rfl | hr0'
      · exact (i1 r0).2 (Or.inl (dfs_path_visits g.fuelBound r0 (SearchNode.root r0 0) vis))
      · exact i5 r0 hr0'

theorem topoAux_edge {g : Graph} {reverse : Bool} (hN : g.nodes.Nodup)
    (hclosed : AdjClosed g (!reverse)) :
    ∀ (roots vis : List Nat), (∀ x ∈ roots, x ∈ g.nodes) →
      ∀ v ∈ (topoAux g reverse roots vis).1, ∀ u ∈ g.adj (!reverse) v,
        u ∈ vis ∨ Before (topoAux g reverse roots vis).1 u v ∨
          ∃ s : SearchNode, ChainOk g (!reverse) s ∧ s.node = v ∧ u ∈ s.chain := by
  intro roots
  induction roots with
  | nil =>
    intro vis hroots v hv
    simp [topoAux] at hv
  | cons r rs ih =>
    intro vis hroots v hv u hu
    have hrN : r ∈ g.nodes := hroots r (List.mem_cons_self _ _)
    have hrs : ∀ x ∈ rs, x ∈ g.nodes := fun x hx => hroots x (List.mem_cons_of_mem _ hx)
    obtain ⟨w1, w2, w3⟩ := dfs_path_state g (!reverse) g.fuelBound r (SearchNode.root r 0) vis rfl
    rw [topoAux_cons] at hv ⊢
    dsimp only at hv ⊢
    rcases List.mem_append.1 hv with hv | hv
    · obtain ⟨s, hs, rfl⟩ := List.mem_map.1 hv
      have hfuel : g.dfsMeasure (!reverse) (g.adj (!reverse) r) (r :: vis) ≤ g.fuelBound := by
        have : g.dfsMeasure (!reverse) (g.adj (!reverse) r) (r :: vis) + 1 ≤ g.fuelBound :=
          dfsMeasure_entry vis hN hrN
        omega
      rcases dfs_path_edge hN hclosed g.fuelBound hrN
          (show (SearchNode.root r 0).node = r from rfl) hfuel s hs u hu with h0 | hb | hchain
      · exact Or.inl h0
      · exact Or.inr (Or.inl (before_append_left hb))
      · refine Or.inr (Or.inr ⟨s, ?_, rfl, hchain⟩)
        refine dfs_path_chainOk g.fuelBound vis ?_ ?_ s hs
        · rfl
        · trivial
    · rcases ih (Node.dfs_path g (!reverse) g.fuelBound r (SearchNode.root r 0) vis).2 hrs
        v hv u hu with h0 | hb | hex
      · rcases (w1 u).1 h0 with h0' | hyield
        · exact Or.inl h0'
        · exact Or.inr (Or.inl (before_of_mem hyield hv))
      · exact Or.inr (Or.inl (before_append_right hb))
      · exact Or.inr (Or.inr hex)

theorem reachN_head {g : Graph} {rev : Bool} {k u v w : Nat} (h : ReachN g rev k v w) :
    v ∈ g.adj rev u → ReachN g rev (k + 1) u w := by
  induction h with
  | refl x =>
    intro hvw
    exact ReachN.tail (ReachN.refl u) hvw
  | tail hp hm ih =>
    intro hvw
    exact ReachN.tail (ih hvw) hm

theorem reachN_rev {g : Graph} (hInv : Inv g) :
    ∀ {k u v : Nat}, ReachN g true k u v → u ∈ g.nodes →
      v ∈ g.nodes ∧ ReachN g false k v u := by
  intro k u v h
  induction h with
  | refl x =>
    intro hu
    exact ⟨hu, ReachN.refl x⟩
  | tail hp hm ih =>
    intro hu
    obtain ⟨hv, hrev⟩ := ih hu
    rename_i k' v' w'
    have hminn : w' ∈ g.inn v' := by simpa [Graph.adj] using hm
    have hw : w' ∈ g.nodes := hInv.innMem v' hv w' hminn
    have hout : v' ∈ g.out w' := (hInv.symm w' hw v' hv).2 hminn
    exact ⟨hw, reachN_head hrev (by simpa [Graph.adj] using hout)⟩

theorem topological_order_mem {g : Graph} (hInv : Inv g) :
    (g.topological_order false).Nodup ∧
      (∀ x, x ∈ g.topological_order false ↔ x ∈ g.nodes) := by
  obtain ⟨t1, t2, t3, t4, t5⟩ :=
    topoAux_state hInv.nodesNodup (inv_adjClosed hInv (!false)) g.nodes [] (fun x hx => hx)
  refine ⟨t3, fun x => ⟨fun hx => t4 x hx, fun hx => ?_⟩⟩
  rcases (t1 x).1 (t5 x hx) with h | h
  · cases h
  · exact h

theorem topological_order_before {g : Graph} (hInv : Inv g) (hAcyc : g.Acyclic) :
    ∀ u ∈ g.nodes, ∀ v ∈ g.out u, Before (g.topological_order false) u v := by
  intro u hu v hv
  have hvN : v ∈ g.nodes := hInv.outMem u hu v hv
  have huin : u ∈ g.adj (!false) v := by
    simpa [Graph.adj] using (hInv.symm u hu v hvN).1 hv
  have hvout : v ∈ g.topological_order false :=
    ((topological_order_mem hInv).2 v).2 hvN
  rcases topoAux_edge hInv.nodesNodup (inv_adjClosed hInv (!false)) g.nodes []
      (fun x hx => hx) v hvout u huin with h0 | hb | ⟨s, hok, hnode, hchain⟩
  · cases h0
  · exact hb
  · exfalso
    obtain ⟨k, hk⟩ := chain_reach s hok u hchain
    rw [hnode] at hk
    have hcyc : ReachN g (!false) (k + 1) u u := ReachN.tail hk huin
    have := (reachN_rev hInv (by simpa using hcyc) hu).2
    exact hAcyc ⟨u, hu, k, this⟩

/-! Measure lemmas for the edges_iter recursion, and unfolding equations. -/

theorem before_mem_left {l : List Nat} {u v : Nat} (h : Before l u v) : u ∈ l := by
  obtain ⟨l₁, l₂, rfl, hu⟩ := h
  simp [hu]

theorem before_mem_right {l : List Nat} {u v : Nat} (h : Before l u v) : v ∈ l := by
  obtain ⟨l₁, l₂, rfl, hu⟩ := h
  simp

theorem finP_append {g : Graph} {rev : Bool} {fin : List Nat} {c : Nat}
    (h : FinP g rev fin) (hc : ∀ v ∈ g.adj rev c, v ∈ fin) :
    FinP g rev (fin ++ [c]) := by
  intro u hu v hv
  rcases List.mem_append.1 hu with hu | hu
  · exact before_append_left (h u hu v hv)
  · rw [List.mem_singleton] at hu
    subst hu
    exact before_of_mem (hc v hv) (List.mem_singleton_self u)

theorem vmapSum_mono {g : Graph} {rev : Bool} {vm vm' : VMap}
    (h : ∀ n, (vm n).isSome → (vm' n).isSome) : vmapSum g rev vm' ≤ vmapSum g rev vm := by
  unfold vmapSum
  apply List.Sublist.sum_le_sum _ (by intro x hx; omega)
  apply List.Sublist.map
  apply List.monotone_filter_right
  intro a ha
  cases hva : vm a with
  | none => simp [hva]
  | some t =>
    exfalso
    have h2 := h a (by simp [hva])
    cases hva' : vm' a with
    | none =>
      rw [hva'] at h2
      simp at h2
    | some t' =>
      rw [hva'] at ha
      simp at ha

theorem vmapSum_update {g : Graph} {rev : Bool} {vm : VMap} {c : Nat}
    (hN : g.nodes.Nodup) (hc : c ∈ g.nodes) (hcn : vm c = none) (t : VisitedType) :
    vmapSum g rev vm =
      1 + (g.adj rev c).length + vmapSum g rev (Function.update vm c (some t)) := by
  unfold vmapSum
  have hcf : c ∈ g.nodes.filter (fun n => (vm n).isNone) := by
    rw [List.mem_filter]
    exact ⟨hc, by simp [hcn]⟩
  have hnf : (g.nodes.filter (fun n => (vm n).isNone)).Nodup := hN.filter _
  have hff : g.nodes.filter (fun n => ((Function.update vm c (some t)) n).isNone) =
      (g.nodes.filter (fun n => (vm n).isNone)).filter (fun x => decide (x ≠ c)) := by
    rw [List.filter_filter]
    apply List.filter_congr
    intro x hx
    rcases Decidable.em (x = c) with h1 | h1
    · subst h1
      simp [Function.update_same]
    · simp [Function.update_noteq h1, h1]
  rw [hff, sum_split_of_mem (fun n => 1 + (g.adj rev n).length) hnf hcf]

theorem vmapSum_le {g : Graph} (rev : Bool) (vm : VMap) :
    vmapSum g rev vm + 1 ≤ g.fuelBound := by
  unfold vmapSum Graph.fuelBound
  have h1 : ((g.nodes.filter (fun n => (vm n).isNone)).map
      (fun n => 1 + (g.adj rev n).length)).sum ≤
      (g.nodes.map (fun n => 1 + (g.adj rev n).length)).sum := by
    apply List.Sublist.sum_le_sum _ (by intro x hx; omega)
    exact List.Sublist.map _ (List.filter_sublist _)
  have h2 : (g.nodes.map (fun n => 1 + (g.adj rev n).length)).sum ≤
      (g.nodes.map (fun n => 1 + (g.out n).length + (g.inn n).length)).sum := by
    apply List.sum_le_sum
    intro i hi
    unfold Graph.adj
    cases rev <;> simp <;> omega
  omega

theorem edgesMeasure_entry {g : Graph} {rev : Bool} {n : Nat} (vm : VMap)
    (hN : g.nodes.Nodup) (hn : n ∈ g.nodes) (t : VisitedType) :
    g.edgesMeasure rev (g.adj rev n) (Function.update vm n (some t)) + 1 ≤ g.fuelBound := by
  unfold Graph.edgesMeasure
  have h1 : vmapSum g rev (Function.update vm n (some t)) ≤
      vmapSum g rev (Function.update (fun _ => none) n (some t)) := by
    apply vmapSum_mono
    intro x hx
    rcases Decidable.em (x = n) with h | h
    · subst h
      simp [Function.update_same]
    · rw [Function.update_noteq h] at hx
      simp at hx
  have h2 : vmapSum g rev (fun _ => none) =
      1 + (g.adj rev n).length + vmapSum g rev (Function.update (fun _ => none) n (some t)) :=
    vmapSum_update hN hn rfl t
  have h3 : vmapSum g rev (fun _ => none) + 1 ≤ g.fuelBound := vmapSum_le rev _
  omega

theorem edgesSeqI_zero (g : Graph) (rev : Bool) (todo : List Nat) (sn : SearchNode)
    (vm : VMap) (fin : List Nat) : edgesSeqI g rev 0 todo sn vm fin = ([], vm, fin, none) := by
  cases todo <;> rfl

theorem edgesSeqI_nil (g : Graph) (rev : Bool) (fuel : Nat) (sn : SearchNode)
    (vm : VMap) (fin : List Nat) : edgesSeqI g rev fuel [] sn vm fin = ([], vm, fin, none) := by
  cases fuel <;> rfl

theorem parent_next (sn : SearchNode) (c : Nat) : (sn.next_node c).parent? = some sn := rfl

theorem parent_none_chain {sn : SearchNode} (h : sn.parent? = none) :
    sn.chain = [sn.node] := by
  cases sn with
  | root n d => rfl
  | child n d p => simp [SearchNode.parent?] at h

theorem edgesSeqI_master {g : Graph} {rev : Bool} (hN : g.nodes.Nodup)
    (hclosed : AdjClosed g rev) (hsf : SelfFree g rev) (fuel : Nat) :
    ∀ (todo : List Nat) (sn : SearchNode) (vm : VMap) (fin : List Nat),
      (∀ n, vm n = some .EXPLORED ↔ n ∈ sn.chain) →
      (∀ n, vm n = some .VISITED ↔ n ∈ fin) →
      ChainOk g rev sn → (∀ c ∈ todo, c ∈ g.adj rev sn.node) → sn.node ∈ g.nodes →
      fin.Nodup → g.edgesMeasure rev todo vm ≤ fuel →
      EdgesOut g rev todo sn vm fin (edgesSeqI g rev fuel todo sn vm fin) := by
  induction fuel with
  | zero =>
    intro todo sn vm fin h1 h2 hok htodo hsn hfnd hfuel
    have hlen : todo = [] := by
      rw [List.length_eq_zero.symm]
      unfold Graph.edgesMeasure at hfuel
      omega
    subst hlen
    rw [edgesSeqI_zero]
    exact ⟨rfl, h1, h2, ⟨[], by simp⟩, hfnd, fun n _ => rfl, by simp,
      fun _ => ⟨by simp, fun hp => hp⟩⟩
  | succ fuel ih =>
    intro todo sn vm fin h1 h2 hok htodo hsn hfnd hfuel
    cases todo with
    | nil =>
      rw [edgesSeqI_nil]
      exact ⟨rfl, h1, h2, ⟨[], by simp⟩, hfnd, fun n _ => rfl, by simp,
        fun _ => ⟨by simp, fun hp => hp⟩⟩
    | cons c cs =>
      have hcadj : c ∈ g.adj rev sn.node := htodo c (List.mem_cons_self _ _)
      have hcs : ∀ y ∈ cs, y ∈ g.adj rev sn.node := fun y hy => htodo y (List.mem_cons_of_mem _ hy)
      have hcN : c ∈ g.nodes := hclosed sn.node hsn c hcadj
      have htail : g.edgesMeasure rev cs vm + 1 = g.edgesMeasure rev (c :: cs) vm := by
        unfold Graph.edgesMeasure
        simp [Nat.add_right_comm]
      cases hc : vm c with
      | none =>
        -- tree edge: the target is unseen, mark it in progress and recurse
        have hcchain : c ∉ sn.chain := fun hmem => by
          have := (h1 c).2 hmem
          rw [hc] at this
          cases this
        have h1c : ∀ n, Function.update vm c (some .EXPLORED) n = some .EXPLORED ↔
            n ∈ (sn.next_node c).chain := by
          intro n
          rw [chain_next]
          rcases Decidable.em (n = c) with h | h
          · subst h
            simp [Function.update_same]
          · rw [Function.update_noteq h, List.mem_cons, h1 n]
            simp [h]
        have h2c : ∀ n, Function.update vm c (some .EXPLORED) n = some .VISITED ↔ n ∈ fin := by
          intro n
          rcases Decidable.em (n = c) with h | h
          · subst h
            rw [Function.update_same]
            constructor
            · intro hcon
              cases hcon
            · intro hmem
              have := (h2 n).2 hmem
              rw [hc] at this
              cases this
          · rw [Function.update_noteq h, h2 n]
        have hmeasc : g.edgesMeasure rev (g.adj rev c) (Function.update vm c (some .EXPLORED)) ≤
            fuel := by
          have hup : vmapSum g rev vm =
              1 + (g.adj rev c).length +
                vmapSum g rev (Function.update vm c (some VisitedType.EXPLORED)) :=
            vmapSum_update hN hcN hc VisitedType.EXPLORED
          unfold Graph.edgesMeasure at hfuel ⊢
          simp only [List.length_cons] at hfuel
          omega
        have ihc := ih (g.adj rev c) (sn.next_node c) (Function.update vm c (some .EXPLORED)) fin
          h1c h2c (chainOk_next.2 ⟨hcadj, hok⟩) (fun y hy => hy) (by rw [node_next]; exact hcN)
          hfnd hmeasc
        have hres : edgesSeqI g rev (fuel + 1) (c :: cs) sn vm fin =
            (⟨.TREE_EDGE, sn.next_node c, vm, fin⟩ ::
              (edgesSeqI g rev fuel (g.adj rev c) (sn.next_node c)
                  (Function.update vm c (some .EXPLORED)) fin).1 ++
              (edgesSeqI g rev fuel cs sn
                (Function.update
                  (edgesSeqI g rev fuel (g.adj rev c) (sn.next_node c)
                    (Function.update vm c (some .EXPLORED)) fin).2.1 c (some .VISITED))
                ((edgesSeqI g rev fuel (g.adj rev c) (sn.next_node c)
                    (Function.update vm c (some .EXPLORED)) fin).2.2.1 ++ [c])).1,
             (edgesSeqI g rev fuel cs sn
                (Function.update
                  (edgesSeqI g rev fuel (g.adj rev c) (sn.next_node c)
                    (Function.update vm c (some .EXPLORED)) fin).2.1 c (some .VISITED))
                ((edgesSeqI g rev fuel (g.adj rev c) (sn.next_node c)
                    (Function.update vm c (some .EXPLORED)) fin).2.2.1 ++ [c])).2) := by
          simp only [edgesSeqI, hc, ihc.err]
        have hcexpl : (edgesSeqI g rev fuel (g.adj rev c) (sn.next_node c)
            (Function.update vm c (some .EXPLORED)) fin).2.1 c = some .EXPLORED := by
          rw [ihc.expl c, chain_next]
          exact List.mem_cons_self _ _
        have hcfin1 : c ∉ (edgesSeqI g rev fuel (g.adj rev c) (sn.next_node c)
            (Function.update vm c (some .EXPLORED)) fin).2.2.1 := by
          intro hmem
          have := (ihc.vis c).2 hmem
          rw [hcexpl] at this
          cases this
        have h1s : ∀ n, Function.update
            (edgesSeqI g rev fuel (g.adj rev c) (sn.next_node c)
              (Function.update vm c (some .EXPLORED)) fin).2.1 c (some .VISITED) n =
              some .EXPLORED ↔ n ∈ sn.chain := by
          intro n
          rcases Decidable.em (n = c) with h | h
          · subst h
            rw [Function.update_same]
            constructor
            · intro hcon
              cases hcon
            · intro hmem
              exact absurd hmem hcchain
          · rw [Function.update_noteq h, ihc.expl n, chain_next, List.mem_cons]
            simp [h]
        have h2s : ∀ n, Function.update
            (edgesSeqI g rev fuel (g.adj rev c) (sn.next_node c)
              (Function.update vm c (some .EXPLORED)) fin).2.1 c (some .VISITED) n =
              some .VISITED ↔
            n ∈ (edgesSeqI g rev fuel (g.adj rev c) (sn.next_node c)
              (Function.update vm c (some .EXPLORED)) fin).2.2.1 ++ [c] := by
          intro n
          rcases Decidable.em (n = c) with h | h
          · subst h
            rw [Function.update_same]
            simp
          · rw [Function.update_noteq h, ihc.vis n]
            simp [h]
        have hfnds : ((edgesSeqI g rev fuel (g.adj rev c) (sn.next_node c)
            (Function.update vm c (some .EXPLORED)) fin).2.2.1 ++ [c]).Nodup := by
          rw [List.nodup_append]
          refine ⟨ihc.nodup, List.nodup_singleton c, ?_⟩
          intro x hx hx2
          rw [List.mem_singleton] at hx2
          subst hx2
          exact hcfin1 hx
        have hmeass : g.edgesMeasure rev cs
            (Function.update
              (edgesSeqI g rev fuel (g.adj rev c) (sn.next_node c)
                (Function.update vm c (some .EXPLORED)) fin).2.1 c (some .VISITED)) ≤ fuel := by
          have hm1 : vmapSum g rev
              (Function.update
                (edgesSeqI g rev fuel (g.adj rev c) (sn.next_node c)
                  (Function.update vm c (some .EXPLORED)) fin).2.1 c (some .VISITED)) ≤
              vmapSum g rev (Function.update vm c (some .EXPLORED)) := by
            apply vmapSum_mono
            intro n hns
            rcases Decidable.em (n = c) with h | h
            · subst h
              simp [Function.update_same]
            · rw [Function.update_noteq h]
              rw [ihc.stable n hns]
              exact hns
          have hup : vmapSum g rev vm =
              1 + (g.adj rev c).length +
                vmapSum g rev (Function.update vm c (some VisitedType.EXPLORED)) :=
            vmapSum_update hN hcN hc VisitedType.EXPLORED
          unfold Graph.edgesMeasure at hfuel ⊢
          simp only [List.length_cons] at hfuel
          omega
        have ihs := ih cs sn
          (Function.update
            (edgesSeqI g rev fuel (g.adj rev c) (sn.next_node c)
              (Function.update vm c (some .EXPLORED)) fin).2.1 c (some .VISITED))
          ((edgesSeqI g rev fuel (g.adj rev c) (sn.next_node c)
              (Function.update vm c (some .EXPLORED)) fin).2.2.1 ++ [c])
          h1s h2s hok hcs hsn hfnds hmeass
        rw [hres]
        refine ⟨?_, ?_, ?_, ?_, ?_, ?_, ?_, ?_⟩
        · exact ihs.err
        · exact ihs.expl
        · exact ihs.vis
        · obtain ⟨e1, he1⟩ := ihc.ext
          obtain ⟨e2, he2⟩ := ihs.ext
          exact ⟨e1 ++ [c] ++ e2, by rw [he2, he1]; simp⟩
        · exact ihs.nodup
        · intro n hns
          have hnc : n ≠ c := by
            rintro rfl
            rw [hc] at hns
            cases hns
          rw [ihs.stable n (by
            rw [Function.update_noteq hnc, ihc.stable n
              (by rw [Function.update_noteq hnc]; exact hns),
              Function.update_noteq hnc]
            exact hns)]
          rw [Function.update_noteq hnc, ihc.stable n
            (by rw [Function.update_noteq hnc]; exact hns),
            Function.update_noteq hnc]
        · intro e he
          rcases List.mem_cons.1 he with rfl | he'
          · refine ⟨sn, rfl, hok, hsn, hcN, hcadj, h1, h2, ?_, ?_, ?_, ?_⟩
            · simp [node_next, hc]
            · simp [node_next, hc]
            · simp [node_next, hc]
            · simp [node_next, hc]
          · rcases List.mem_append.1 he' with he2 | he2
            · exact ihc.events e he2
            · exact ihs.events e he2
        · intro hnb
          have hnbc : ∀ e ∈ (edgesSeqI g rev fuel (g.adj rev c) (sn.next_node c)
              (Function.update vm c (some .EXPLORED)) fin).1,
              e.ty ≠ .BACK_EDGE ∧ e.ty ≠ .TRIVIAL_BACK_EDGE := by
            intro e he
            exact hnb e (List.mem_cons_of_mem _ (List.mem_append.2 (Or.inl he)))
          have hnbs : ∀ e ∈ (edgesSeqI g rev fuel cs sn
              (Function.update
                (edgesSeqI g rev fuel (g.adj rev c) (sn.next_node c)
                  (Function.update vm c (some .EXPLORED)) fin).2.1 c (some .VISITED))
              ((edgesSeqI g rev fuel (g.adj rev c) (sn.next_node c)
                  (Function.update vm c (some .EXPLORED)) fin).2.2.1 ++ [c])).1,
              e.ty ≠ .BACK_EDGE ∧ e.ty ≠ .TRIVIAL_BACK_EDGE := by
            intro e he
            exact hnb e (List.mem_cons_of_mem _ (List.mem_append.2 (Or.inr he)))
          obtain ⟨hcomp, hfp⟩ := ihc.noBad hnbc
          obtain ⟨hcomps, hfps⟩ := ihs.noBad hnbs
          obtain ⟨e2, he2⟩ := ihs.ext
          constructor
          · intro x hx
            rcases List.mem_cons.1 hx with rfl | hx'
            · rw [he2]
              simp
            · exact hcomps x hx'
          · intro hp
            exact hfps (finP_append (hfp hp) hcomp)
      | some t =>
        cases t with
        | EXPLORED =>
          have hcchain : c ∈ sn.chain := (h1 c).1 hc
          cases hp : sn.parent? with
          | none =>
            exfalso
            rw [parent_none_chain hp, List.mem_singleton] at hcchain
            subst hcchain
            exact hsf sn.node hsn hcadj
          | some p =>
            have ihs := ih cs sn vm fin h1 h2 hok hcs hsn hfnd (by omega)
            have hres : edgesSeqI g rev (fuel + 1) (c :: cs) sn vm fin =
                (⟨if p.node = c then .TRIVIAL_BACK_EDGE else .BACK_EDGE,
                    sn.next_node c, vm, fin⟩ ::
                  (edgesSeqI g rev fuel cs sn vm fin).1,
                 (edgesSeqI g rev fuel cs sn vm fin).2) := by
              simp only [edgesSeqI, hc, hp]
            rw [hres]
            refine ⟨ihs.err, ihs.expl, ihs.vis, ihs.ext, ihs.nodup, ihs.stable, ?_, ?_⟩
            · intro e he
              rcases List.mem_cons.1 he with rfl | he'
              · refine ⟨sn, rfl, hok, hsn, hcN, hcadj, h1, h2, ?_, ?_, ?_, ?_⟩
                all_goals simp only [node_next]
                · constructor
                  · intro ht
                    split at ht <;> cases ht
                  · intro ht
                    rw [hc] at ht
                    cases ht
                · constructor
                  · intro ht
                    split at ht <;> cases ht
                  · intro ht
                    rw [hc] at ht
                    cases ht
                · constructor
                  · intro _
                    simpa using hc
                  · intro _
                    rcases Decidable.em (p.node = c) with h | h
                    · rw [if_pos h]
                      exact Or.inr rfl
                    · rw [if_neg h]
                      exact Or.inl rfl
                · rcases Decidable.em (p.node = c) with h | h
                  · rw [if_pos h]
                    constructor
                    · intro _
                      refine ⟨by simpa using hc, ?_⟩
                      rw [hp]
                      simp [node_next, h]
                    · intro _
                      rfl
                  · rw [if_neg h]
                    constructor
                    · intro ht
                      cases ht
                    · rintro ⟨_, hpar⟩
                      rw [hp] at hpar
                      simp [node_next] at hpar
                      exact absurd hpar h
              · exact ihs.events e he'
            · intro hnb
              exfalso
              have := hnb _ (List.mem_cons_self _ _)
              rcases Decidable.em (p.node = c) with h | h
              · rw [if_pos h] at this
                exact this.2 rfl
              · rw [if_neg h] at this
                exact this.1 rfl
        | VISITED =>
          have ihs := ih cs sn vm fin h1 h2 hok hcs hsn hfnd (by omega)
          have hres : edgesSeqI g rev (fuel + 1) (c :: cs) sn vm fin =
              (⟨.CROSS_EDGE, sn.next_node c, vm, fin⟩ ::
                (edgesSeqI g rev fuel cs sn vm fin).1,
               (edgesSeqI g rev fuel cs sn vm fin).2) := by
            simp only [edgesSeqI, hc]
          rw [hres]
          refine ⟨ihs.err, ihs.expl, ihs.vis, ihs.ext, ihs.nodup, ihs.stable, ?_, ?_⟩
          · intro e he
            rcases List.mem_cons.1 he with rfl | he'
            · refine ⟨sn, rfl, hok, hsn, hcN, hcadj, h1, h2, ?_, ?_, ?_, ?_⟩
              all_goals simp only [node_next]
              · constructor
                · intro ht
                  cases ht
                · intro ht
                  rw [hc] at ht
                  cases ht
              · simp [hc]
              · constructor
                · intro ht
                  rcases ht with ht | ht <;> cases ht
                · intro ht
                  rw [hc] at ht
                  cases ht
              · constructor
                · intro ht
                  cases ht
                · rintro ⟨ht, _⟩
                  rw [hc] at ht
                  cases ht
            · exact ihs.events e he'
          · intro hnb
            have hnbs : ∀ e ∈ (edgesSeqI g rev fuel cs sn vm fin).1,
                e.ty ≠ .BACK_EDGE ∧ e.ty ≠ .TRIVIAL_BACK_EDGE :=
              fun e he => hnb e (List.mem_cons_of_mem _ he)
            obtain ⟨hcomps, hfps⟩ := ihs.noBad hnbs
            obtain ⟨e2, he2⟩ := ihs.ext
            constructor
            · intro x hx
              rcases List.mem_cons.1 hx with rfl | hx'
              · rw [he2]
                exact List.mem_append.2 (Or.inl ((h2 x).1 hc))
              · exact hcomps x hx'
            · exact hfps

theorem edgesIterI_root {g : Graph} {rev : Bool} (hN : g.nodes.Nodup)
    (hclosed : AdjClosed g rev) (hsf : SelfFree g rev) {fuel n : Nat} {vm : VMap}
    {fin : List Nat} (hn : n ∈ g.nodes)
    (h1 : ∀ x, vm x ≠ some VisitedType.EXPLORED)
    (h2 : ∀ x, vm x = some VisitedType.VISITED ↔ x ∈ fin)
    (hfnd : fin.Nodup)
    (hfuel : g.edgesMeasure rev (g.adj rev n)
      (Function.update vm n (some VisitedType.EXPLORED)) ≤ fuel) :
    IterOut g rev n vm fin (Node.edgesIterI g rev fuel n (SearchNode.root n 0) vm fin) := by
  unfold Node.edgesIterI
  by_cases hvn : (vm n).isSome
  · rw [if_pos hvn]
    have hnf : n ∈ fin := by
      cases hv : vm n with
      | none => rw [hv] at hvn; cases hvn
      | some t =>
        cases t with
        | EXPLORED => exact absurd hv (h1 n)
        | VISITED => exact (h2 n).1 hv
    exact ⟨rfl, h1, h2, ⟨[], by simp⟩, hfnd, by simp, fun _ hp => ⟨hp, hnf⟩⟩
  · rw [if_neg hvn]
    have hvnone : vm n = none := by
      cases hv : vm n with
      | none => rfl
      | some t => rw [hv] at hvn; simp at hvn
    have h1c : ∀ x, Function.update vm n (some VisitedType.EXPLORED) x =
        some VisitedType.EXPLORED ↔ x ∈ (SearchNode.root n 0).chain := by
      intro x
      show _ ↔ x ∈ [n]
      rcases Decidable.em (x = n) with h | h
      · subst h
        simp [Function.update_same]
      · rw [Function.update_noteq h]
        simp [h, h1 x]
    have h2c : ∀ x, Function.update vm n (some VisitedType.EXPLORED) x =
        some VisitedType.VISITED ↔ x ∈ fin := by
      intro x
      rcases Decidable.em (x = n) with h | h
      · subst h
        rw [Function.update_same]
        constructor
        · intro hcon
          cases hcon
        · intro hmem
          have := (h2 x).2 hmem
          rw [hvnone] at this
          cases this
      · rw [Function.update_noteq h, h2 x]
    have hm := edgesSeqI_master hN hclosed hsf fuel (g.adj rev n) (SearchNode.root n 0)
      (Function.update vm n (some VisitedType.EXPLORED)) fin h1c h2c trivial
      (fun c hc => hc) hn hfnd hfuel
    dsimp only
    rw [hm.err]
    dsimp only
    have hnfin : n ∉ (edgesSeqI g rev fuel (g.adj rev n) (SearchNode.root n 0)
        (Function.update vm n (some VisitedType.EXPLORED)) fin).2.2.1 := by
      intro hmem
      have hv := (hm.vis n).2 hmem
      have he := (hm.expl n).2 (by simp [SearchNode.chain])
      rw [hv] at he
      cases he
    refine ⟨rfl, ?_, ?_, ?_, ?_, ?_, ?_⟩
    all_goals try dsimp only
    · intro x
      rcases Decidable.em (x = n) with h | h
      · subst h
        rw [Function.update_same]
        intro hcon
        cases hcon
      · rw [Function.update_noteq h]
        intro hcon
        have := (hm.expl x).1 hcon
        simp [SearchNode.chain] at this
        exact h this
    · intro x
      rcases Decidable.em (x = n) with h | h
      · subst h
        rw [Function.update_same]
        simp
      · rw [Function.update_noteq h, hm.vis x]
        simp [h]
    · obtain ⟨e, he⟩ := hm.ext
      exact ⟨e ++ [n], by rw [he]; simp⟩
    · rw [List.nodup_append]
      refine ⟨hm.nodup, List.nodup_singleton n, ?_⟩
      intro x hx hx2
      rw [List.mem_singleton] at hx2
      subst hx2
      exact hnfin hx
    · exact hm.events
    · intro hnb hfp
      obtain ⟨hcomp, hfp2⟩ := hm.noBad hnb
      exact ⟨finP_append (hfp2 hfp) hcomp, by simp⟩

/-! Projection of the instrumented runs onto the source functions. -/

theorem edgesSeq_proj {g : Graph} {rev : Bool} (fuel : Nat) :
    ∀ (todo : List Nat) (sn : SearchNode) (vm : VMap) (fin : List Nat),
      edgesSeq g rev fuel todo sn vm =
        ((edgesSeqI g rev fuel todo sn vm fin).1.map (fun e => (e.ty, e.sn)),
         (edgesSeqI g rev fuel todo sn vm fin).2.1,
         (edgesSeqI g rev fuel todo sn vm fin).2.2.2) := by
  induction fuel with
  | zero =>
    intro todo sn vm fin
    rw [edgesSeqI_zero]
    cases todo <;> rfl
  | succ fuel ih =>
    intro todo sn vm fin
    cases todo with
    | nil =>
      rw [edgesSeqI_nil]
      rfl
    | cons c cs =>
      cases hc : vm c with
      | none =>
        have ihc := ih (g.adj rev c) (sn.next_node c)
          (Function.update vm c (some VisitedType.EXPLORED)) fin
        cases herr : (edgesSeqI g rev fuel (g.adj rev c) (sn.next_node c)
            (Function.update vm c (some VisitedType.EXPLORED)) fin).2.2.2 with
        | some e =>
          have hS : edgesSeq g rev (fuel + 1) (c :: cs) sn vm =
              ((EdgeType.TREE_EDGE, sn.next_node c) ::
                (edgesSeqI g rev fuel (g.adj rev c) (sn.next_node c)
                  (Function.update vm c (some VisitedType.EXPLORED)) fin).1.map
                    (fun e => (e.ty, e.sn)),
               (edgesSeqI g rev fuel (g.adj rev c) (sn.next_node c)
                  (Function.update vm c (some VisitedType.EXPLORED)) fin).2.1,
               some e) := by
            simp only [edgesSeq, hc, ihc, herr]
          have hI : edgesSeqI g rev (fuel + 1) (c :: cs) sn vm fin =
              (⟨EdgeType.TREE_EDGE, sn.next_node c, vm, fin⟩ ::
                (edgesSeqI g rev fuel (g.adj rev c) (sn.next_node c)
                  (Function.update vm c (some VisitedType.EXPLORED)) fin).1,
               (edgesSeqI g rev fuel (g.adj rev c) (sn.next_node c)
                  (Function.update vm c (some VisitedType.EXPLORED)) fin).2.1,
               (edgesSeqI g rev fuel (g.adj rev c) (sn.next_node c)
                  (Function.update vm c (some VisitedType.EXPLORED)) fin).2.2.1,
               some e) := by
            simp only [edgesSeqI, hc, herr]
          rw [hS, hI]
          simp
        | none =>
          have ihs := ih cs sn
            (Function.update
              (edgesSeqI g rev fuel (g.adj rev c) (sn.next_node c)
                (Function.update vm c (some VisitedType.EXPLORED)) fin).2.1 c
              (some VisitedType.VISITED))
            ((edgesSeqI g rev fuel (g.adj rev c) (sn.next_node c)
                (Function.update vm c (some VisitedType.EXPLORED)) fin).2.2.1 ++ [c])
          have hS : edgesSeq g rev (fuel + 1) (c :: cs) sn vm =
              ((EdgeType.TREE_EDGE, sn.next_node c) ::
                (edgesSeqI g rev fuel (g.adj rev c) (sn.next_node c)
                  (Function.update vm c (some VisitedType.EXPLORED)) fin).1.map
                    (fun e => (e.ty, e.sn)) ++
                (edgesSeqI g rev fuel cs sn
                  (Function.update
                    (edgesSeqI g rev fuel (g.adj rev c) (sn.next_node c)
                      (Function.update vm c (some VisitedType.EXPLORED)) fin).2.1 c
                    (some VisitedType.VISITED))
                  ((edgesSeqI g rev fuel (g.adj rev c) (sn.next_node c)
                      (Function.update vm c (some VisitedType.EXPLORED)) fin).2.2.1 ++
                    [c])).1.map (fun e => (e.ty, e.sn)),
               (edgesSeqI g rev fuel cs sn
                  (Function.update
                    (edgesSeqI g rev fuel (g.adj rev c) (sn.next_node c)
                      (Function.update vm c (some VisitedType.EXPLORED)) fin).2.1 c
                    (some VisitedType.VISITED))
                  ((edgesSeqI g rev fuel (g.adj rev c) (sn.next_node c)
                      (Function.update vm c (some VisitedType.EXPLORED)) fin).2.2.1 ++
                    [c])).2.1,
               (edgesSeqI g rev fuel cs sn
                  (Function.update
                    (edgesSeqI g rev fuel (g.adj rev c) (sn.next_node c)
                      (Function.update vm c (some VisitedType.EXPLORED)) fin).2.1 c
                    (some VisitedType.VISITED))
                  ((edgesSeqI g rev fuel (g.adj rev c) (sn.next_node c)
                      (Function.update vm c (some VisitedType.EXPLORED)) fin).2.2.1 ++
                    [c])).2.2.2) := by
            simp only [edgesSeq, hc, ihc, herr, ihs]
          have hI : edgesSeqI g rev (fuel + 1) (c :: cs) sn vm fin =
              (⟨EdgeType.TREE_EDGE, sn.next_node c, vm, fin⟩ ::
                (edgesSeqI g rev fuel (g.adj rev c) (sn.next_node c)
                  (Function.update vm c (some VisitedType.EXPLORED)) fin).1 ++
                (edgesSeqI g rev fuel cs sn
                  (Function.update
                    (edgesSeqI g rev fuel (g.adj rev c) (sn.next_node c)
                      (Function.update vm c (some VisitedType.EXPLORED)) fin).2.1 c
                    (some VisitedType.VISITED))
                  ((edgesSeqI g rev fuel (g.adj rev c) (sn.next_node c)
                      (Function.update vm c (some VisitedType.EXPLORED)) fin).2.2.1 ++
                    [c])).1,
               (edgesSeqI g rev fuel cs sn
                  (Function.update
                    (edgesSeqI g rev fuel (g.adj rev c) (sn.next_node c)
                      (Function.update vm c (some VisitedType.EXPLORED)) fin).2.1 c
                    (some VisitedType.VISITED))
                  ((edgesSeqI g rev fuel (g.adj rev c) (sn.next_node c)
                      (Function.update vm c (some VisitedType.EXPLORED)) fin).2.2.1 ++
                    [c])).2) := by
            simp only [edgesSeqI, hc, herr]
          rw [hS, hI]
          simp
      | some t =>
        cases t with
        | EXPLORED =>
          cases hp : sn.parent? with
          | none =>
            have hS : edgesSeq g rev (fuel + 1) (c :: cs) sn vm = ([], vm, some "No parent") := by
              simp only [edgesSeq, hc, hp]
            have hI : edgesSeqI g rev (fuel + 1) (c :: cs) sn vm fin =
                ([], vm, fin, some "No parent") := by
              simp only [edgesSeqI, hc, hp]
            rw [hS, hI]
            simp
          | some p =>
            have hS : edgesSeq g rev (fuel + 1) (c :: cs) sn vm =
                ((if p.node = c then EdgeType.TRIVIAL_BACK_EDGE else EdgeType.BACK_EDGE,
                    sn.next_node c) :: (edgesSeq g rev fuel cs sn vm).1,
                 (edgesSeq g rev fuel cs sn vm).2) := by
              simp only [edgesSeq, hc, hp]
            have hI : edgesSeqI g rev (fuel + 1) (c :: cs) sn vm fin =
                (⟨if p.node = c then EdgeType.TRIVIAL_BACK_EDGE else EdgeType.BACK_EDGE,
                    sn.next_node c, vm, fin⟩ :: (edgesSeqI g rev fuel cs sn vm fin).1,
                 (edgesSeqI g rev fuel cs sn vm fin).2) := by
              simp only [edgesSeqI, hc, hp]
            rw [hS, hI, ih cs sn vm fin]
            simp
        | VISITED =>
          have hS : edgesSeq g rev (fuel + 1) (c :: cs) sn vm =
              ((EdgeType.CROSS_EDGE, sn.next_node c) :: (edgesSeq g rev fuel cs sn vm).1,
               (edgesSeq g rev fuel cs sn vm).2) := by
            simp only [edgesSeq, hc]
          have hI : edgesSeqI g rev (fuel + 1) (c :: cs) sn vm fin =
              (⟨EdgeType.CROSS_EDGE, sn.next_node c, vm, fin⟩ ::
                (edgesSeqI g rev fuel cs sn vm fin).1,
               (edgesSeqI g rev fuel cs sn vm fin).2) := by
            simp only [edgesSeqI, hc]
          rw [hS, hI, ih cs sn vm fin]
          simp

theorem edges_iter_proj (g : Graph) (rev : Bool) (fuel n : Nat) (sn : SearchNode)
    (vm : VMap) (fin : List Nat) :
    Node.edges_iter g rev fuel n sn vm =
      ((Node.edgesIterI g rev fuel n sn vm fin).1.map (fun e => (e.ty, e.sn)),
       (Node.edgesIterI g rev fuel n sn vm fin).2.1,
       (Node.edgesIterI g rev fuel n sn vm fin).2.2.2) := by
  unfold Node.edges_iter Node.edgesIterI
  by_cases hvn : (vm n).isSome
  · rw [if_pos hvn, if_pos hvn]
    simp
  · rw [if_neg hvn, if_neg hvn]
    dsimp only
    rw [edgesSeq_proj fuel (g.adj rev n) sn (Function.update vm n (some VisitedType.EXPLORED)) fin]
    cases herr : (edgesSeqI g rev fuel (g.adj rev n) sn
        (Function.update vm n (some VisitedType.EXPLORED)) fin).2.2.2 <;> simp [herr]

theorem hasCycleAux_proj (g : Graph) (bad : List EdgeType) :
    ∀ (roots : List Nat) (vm : VMap) (fin : List Nat),
      hasCycleAux g bad roots vm = hasCycleAuxI g bad roots vm fin := by
  intro roots
  induction roots with
  | nil =>
    intro vm fin
    rfl
  | cons n ns ih =>
    intro vm fin
    show (let r := Node.edges_iter g false g.fuelBound n (SearchNode.root n 0) vm
          if r.1.any (fun e => e.1 ∈ bad) then Except.ok true
          else match r.2.2 with
            | some e => Except.error e
            | none => hasCycleAux g bad ns r.2.1) = _
    rw [edges_iter_proj g false g.fuelBound n (SearchNode.root n 0) vm fin]
    show (if ((Node.edgesIterI g false g.fuelBound n (SearchNode.root n 0) vm fin).1.map
            (fun e => (e.ty, e.sn))).any (fun e => e.1 ∈ bad) = true then Except.ok true
          else _) = _
    have hany0 : ∀ l : List EvI,
        (l.map (fun e => (e.ty, e.sn))).any (fun e => e.1 ∈ bad) =
          l.any (fun e => e.ty ∈ bad) := by
      intro l
      induction l with
      | nil => rfl
      | cons e es ihe => simp [ihe]
    have hany := hany0 (Node.edgesIterI g false g.fuelBound n (SearchNode.root n 0) vm fin).1
    rw [hany]
    show _ = (let r := Node.edgesIterI g false g.fuelBound n (SearchNode.root n 0) vm fin
      if r.1.any (fun e => e.ty ∈ bad) then Except.ok true
      else match r.2.2.2 with
        | some e => Except.error e
        | none => hasCycleAuxI g bad ns r.2.1 r.2.2.1)
    dsimp only
    by_cases hb : (Node.edgesIterI g false g.fuelBound n (SearchNode.root n 0) vm fin).1.any
        (fun e => e.ty ∈ bad) = true
    · rw [if_pos hb, if_pos hb]
    · rw [if_neg hb, if_neg hb]
      cases herr : (Node.edgesIterI g false g.fuelBound n (SearchNode.root n 0) vm fin).2.2.2 with
      | some e => rfl
      | none => exact ih _ _

theorem hasCycleAuxI_spec {g : Graph} (hN : g.nodes.Nodup)
    (hclosed : AdjClosed g false) (hsf : SelfFree g false) (bad : List EdgeType) :
    ∀ (roots : List Nat) (vm : VMap) (fin : List Nat),
      (∀ x ∈ roots, x ∈ g.nodes) →
      (∀ x, vm x ≠ some VisitedType.EXPLORED) →
      (∀ x, vm x = some VisitedType.VISITED ↔ x ∈ fin) →
      fin.Nodup →
      (∃ b, hasCycleAuxI g bad roots vm fin = .ok b) ∧
        (hasCycleAuxI g bad roots vm fin = .ok true →
          ∃ e, EvOk g false e ∧ e.ty ∈ bad) ∧
        (EdgeType.BACK_EDGE ∈ bad → EdgeType.TRIVIAL_BACK_EDGE ∈ bad →
          FinP g false fin → hasCycleAuxI g bad roots vm fin = .ok false →
          ∃ F, FinP g false F ∧ F.Nodup ∧ (∀ x ∈ fin, x ∈ F) ∧ ∀ x ∈ roots, x ∈ F) := by
  intro roots
  induction roots with
  | nil =>
    intro vm fin hroots h1 h2 hfnd
    refine ⟨⟨false, rfl⟩, ?_, ?_⟩
    · intro hcon
      cases hcon
    · intro _ _ hfp _
      exact ⟨fin, hfp, hfnd, fun x hx => hx, by simp⟩
  | cons n ns ih =>
    intro vm fin hroots h1 h2 hfnd
    have hnN : n ∈ g.nodes := hroots n (List.mem_cons_self _ _)
    have hns : ∀ x ∈ ns, x ∈ g.nodes := fun x hx => hroots x (List.mem_cons_of_mem _ hx)
    have hfuel : g.edgesMeasure false (g.adj false n)
        (Function.update vm n (some VisitedType.EXPLORED)) ≤ g.fuelBound := by
      have : g.edgesMeasure false (g.adj false n)
          (Function.update vm n (some VisitedType.EXPLORED)) + 1 ≤ g.fuelBound :=
        edgesMeasure_entry vm hN hnN VisitedType.EXPLORED
      omega
    have io := edgesIterI_root hN hclosed hsf hnN h1 h2 hfnd hfuel
    have hstep : hasCycleAuxI g bad (n :: ns) vm fin =
        (if (Node.edgesIterI g false g.fuelBound n (SearchNode.root n 0) vm fin).1.any
            (fun e => e.ty ∈ bad) = true then Except.ok true
         else
           match (Node.edgesIterI g false g.fuelBound n (SearchNode.root n 0) vm fin).2.2.2 with
           | some e => Except.error e
           | none =>
             hasCycleAuxI g bad ns
               (Node.edgesIterI g false g.fuelBound n (SearchNode.root n 0) vm fin).2.1
               (Node.edgesIterI g false g.fuelBound n (SearchNode.root n 0) vm fin).2.2.1) := rfl
    rw [hstep]
    by_cases hb : (Node.edgesIterI g false g.fuelBound n (SearchNode.root n 0) vm fin).1.any
        (fun e => e.ty ∈ bad) = true
    · rw [if_pos hb]
      refine ⟨⟨true, rfl⟩, ?_, ?_⟩
      · intro _
        obtain ⟨e, he, hety⟩ := List.any_eq_true.1 hb
        exact ⟨e, io.events e he, by simpa using hety⟩
      · intro _ _ _ hcon
        cases hcon
    · rw [if_neg hb, io.err]
      dsimp only
      have hnb : ∀ x ∈ (Node.edgesIterI g false g.fuelBound n
          (SearchNode.root n 0) vm fin).1, x.ty ∉ bad := by
        intro x hx hmem
        exact hb (List.any_eq_true.2 ⟨x, hx, by simpa using hmem⟩)
      obtain ⟨ihe, ihs, ihc⟩ := ih
        (Node.edgesIterI g false g.fuelBound n (SearchNode.root n 0) vm fin).2.1
        (Node.edgesIterI g false g.fuelBound n (SearchNode.root n 0) vm fin).2.2.1
        hns io.expl io.vis io.nodup
      refine ⟨ihe, ihs, ?_⟩
      intro hbad1 hbad2 hfp hok
      have hnbt : ∀ e ∈ (Node.edgesIterI g false g.fuelBound n
          (SearchNode.root n 0) vm fin).1,
          e.ty ≠ EdgeType.BACK_EDGE ∧ e.ty ≠ EdgeType.TRIVIAL_BACK_EDGE := by
        intro e he
        constructor
        · intro ht
          exact hnb e he (ht ▸ hbad1)
        · intro ht
          exact hnb e he (ht ▸ hbad2)
      obtain ⟨hfp2, hnfin⟩ := io.noBad hnbt hfp
      obtain ⟨F, hF1, hF2, hF3, hF4⟩ := ihc hbad1 hbad2 hfp2 hok
      obtain ⟨ex, hex⟩ := io.ext
      refine ⟨F, hF1, hF2, ?_, ?_⟩
      · intro x hx
        exact hF3 x (by rw [hex]; exact List.mem_append.2 (Or.inl hx))
      · intro x hx
        rcases List.mem_cons.1 hx with rfl | hx'
        · exact hF3 x hnfin
        · exact hF4 x hx'


/-! From classification runs to cycles and back. -/

theorem inv_selfFree {g : Graph} (hInv : Inv g) (rev : Bool) : SelfFree g rev := by
  intro n hn
  cases rev
  · simpa [Graph.adj] using hInv.noSelfOut n hn
  · simpa [Graph.adj] using hInv.noSelfInn n hn

theorem reachN_zero {g : Graph} {rev : Bool} {a b : Nat} (h : ReachN g rev 0 a b) :
    a = b := by
  cases h
  rfl

theorem finP_walk {g : Graph} {F : List Nat} (hfp : FinP g false F) (hnd : F.Nodup) :
    ∀ {m a b : Nat}, ReachN g false m a b → a ∈ F →
      b ∈ F ∧ (0 < m → F.indexOf b < F.indexOf a) := by
  intro m a b h
  induction h with
  | refl x =>
    intro ha
    exact ⟨ha, by omega⟩
  | tail hp hm ih =>
    intro ha
    obtain ⟨hvF, hlt⟩ := ih ha
    rename_i kk aa vv ww
    have hbef := hfp vv hvF ww hm
    have hwF : ww ∈ F := before_mem_left hbef
    have hwv : F.indexOf ww < F.indexOf vv := before_indexOf hnd hbef
    refine ⟨hwF, fun _ => ?_⟩
    rcases Nat.eq_zero_or_pos kk with hk | hk
    · subst hk
      rw [reachN_zero hp]
      exact hwv
    · exact lt_trans hwv (hlt hk)

theorem finP_no_cycle {g : Graph} {F : List Nat} (hfp : FinP g false F) (hnd : F.Nodup)
    (hall : ∀ x ∈ g.nodes, x ∈ F) : ¬g.Cyclic := by
  rintro ⟨u, hu, k, hcyc⟩
  have := (finP_walk hfp hnd hcyc (hall u hu)).2 (by omega)
  omega

theorem has_cycle_iff {g : Graph} (hInv : Inv g) :
    g.has_cycle true false = .ok true ↔ g.Cyclic := by
  have hproj : g.has_cycle true false =
      hasCycleAuxI g (badEdges true false) g.nodes (fun _ => none) [] := by
    unfold Graph.has_cycle
    exact hasCycleAux_proj g _ g.nodes (fun _ => none) []
  obtain ⟨⟨b, hb⟩, hsound, hcomp⟩ := hasCycleAuxI_spec hInv.nodesNodup
    (inv_adjClosed hInv false) (inv_selfFree hInv false) (badEdges true false)
    g.nodes (fun _ => none) [] (fun x hx => hx) (by simp) (by simp) List.nodup_nil
  constructor
  · intro htrue
    rw [hproj] at htrue
    obtain ⟨e, hev, hty⟩ := hsound htrue
    obtain ⟨usn, hsn_eq, hok, husnN, hvN, hadj, hpre1, hpre2, _, _, hback, _⟩ := hev
    have hbadList : e.ty = EdgeType.BACK_EDGE ∨ e.ty = EdgeType.TRIVIAL_BACK_EDGE := by
      simpa [badEdges] using hty
    have hexp : e.pre e.sn.node = some VisitedType.EXPLORED := hback.1 hbadList
    have hchain : e.sn.node ∈ usn.chain := (hpre1 _).1 hexp
    obtain ⟨kk, hkk⟩ := chain_reach usn hok _ hchain
    exact ⟨e.sn.node, hvN, kk, ReachN.tail hkk hadj⟩
  · intro hcyc
    cases b with
    | true =>
      rw [hproj]
      exact hb
    | false =>
      exfalso
      have hfpnil : FinP g false [] := by
        intro u hu
        cases hu
      obtain ⟨F, hF1, hF2, _, hF4⟩ := hcomp (by simp [badEdges]) (by simp [badEdges])
        hfpnil hb
      exact finP_no_cycle hF1 hF2 hF4 hcyc

theorem has_cycle_never_raises {g : Graph} (hInv : Inv g) (ac atb : Bool) :
    ∃ b, g.has_cycle ac atb = .ok b := by
  obtain ⟨⟨b, hb⟩, _, _⟩ := hasCycleAuxI_spec hInv.nodesNodup
    (inv_adjClosed hInv false) (inv_selfFree hInv false) (badEdges ac atb)
    g.nodes (fun _ => none) [] (fun x hx => hx) (by simp) (by simp) List.nodup_nil
  refine ⟨b, ?_⟩
  unfold Graph.has_cycle
  rw [hasCycleAux_proj g _ g.nodes (fun _ => none) []]
  exact hb

theorem edges_iter_never_raises {g : Graph} (hInv : Inv g) (rev : Bool) {r : Nat}
    (hr : r ∈ g.nodes) :
    (Node.edges_iter g rev g.fuelBound r (SearchNode.root r 0) (fun _ => none)).2.2 = none := by
  rw [edges_iter_proj g rev g.fuelBound r (SearchNode.root r 0) (fun _ => none) []]
  have hfuel : g.edgesMeasure rev (g.adj rev r)
      (Function.update (fun _ => none) r (some VisitedType.EXPLORED)) ≤ g.fuelBound := by
    have : g.edgesMeasure rev (g.adj rev r)
        (Function.update (fun _ => none) r (some VisitedType.EXPLORED)) + 1 ≤ g.fuelBound :=
      edgesMeasure_entry (fun _ => none) hInv.nodesNodup hr VisitedType.EXPLORED
    omega
  exact (edgesIterI_root hInv.nodesNodup (inv_adjClosed hInv rev) (inv_selfFree hInv rev)
    hr (by simp) (by simp) List.nodup_nil hfuel).err

theorem edges_iter_classification {g : Graph} (hInv : Inv g) (rev : Bool) {r : Nat}
    (hr : r ∈ g.nodes) :
    ∀ e ∈ (Node.edgesIterI g rev g.fuelBound r (SearchNode.root r 0) (fun _ => none) []).1,
      ∃ usn : SearchNode, e.sn.parent? = some usn ∧
        (∀ n, e.pre n = some VisitedType.EXPLORED ↔ n ∈ usn.chain) ∧
        (∀ n, e.pre n = some VisitedType.VISITED ↔ n ∈ e.fin) ∧
        (e.ty = .TREE_EDGE ↔ e.pre e.sn.node = none) ∧
        (e.ty = .TRIVIAL_BACK_EDGE ↔ e.pre e.sn.node = some VisitedType.EXPLORED ∧
          usn.parent?.map SearchNode.node = some e.sn.node) ∧
        (e.ty = .BACK_EDGE ↔ e.pre e.sn.node = some VisitedType.EXPLORED ∧
          usn.parent?.map SearchNode.node ≠ some e.sn.node) ∧
        (e.ty = .CROSS_EDGE ↔ e.pre e.sn.node = some VisitedType.VISITED) := by
  intro e he
  have hfuel : g.edgesMeasure rev (g.adj rev r)
      (Function.update (fun _ => none) r (some VisitedType.EXPLORED)) ≤ g.fuelBound := by
    have : g.edgesMeasure rev (g.adj rev r)
        (Function.update (fun _ => none) r (some VisitedType.EXPLORED)) + 1 ≤ g.fuelBound :=
      edgesMeasure_entry (fun _ => none) hInv.nodesNodup hr VisitedType.EXPLORED
    omega
  have io := edgesIterI_root hInv.nodesNodup (inv_adjClosed hInv rev) (inv_selfFree hInv rev)
    hr (by simp) (by simp) List.nodup_nil hfuel
  obtain ⟨usn, hsn_eq, hok, husnN, hvN, hadj, hpre1, hpre2, htree, hcross, hback, htriv⟩ :=
    io.events e he
  refine ⟨usn, ?_, hpre1, hpre2, htree, htriv, ?_, hcross⟩
  · rw [hsn_eq]
    exact parent_next usn e.sn.node
  · constructor
    · intro hbk
      have hexp : e.pre e.sn.node = some VisitedType.EXPLORED := hback.1 (Or.inl hbk)
      refine ⟨hexp, ?_⟩
      intro heq
      have := htriv.2 ⟨hexp, heq⟩
      rw [hbk] at this
      cases this
    · rintro ⟨hexp, hne⟩
      rcases hback.2 hexp with h | h
      · exact h
      · exact absurd (htriv.1 h).2 hne

/-! Facts about the concrete graphs. -/


theorem inv_gScc : Inv gScc :=
  ⟨by decide, by decide, by decide, by decide, by decide, by decide, by decide, by decide⟩

theorem inv_gTwo : Inv gTwo :=
  ⟨by decide, by decide, by decide, by decide, by decide, by decide, by decide, by decide⟩

theorem gScc_reach_from_two {k u v : Nat} (h : ReachN gScc false k u v)
    (hu : u = 2) : v = 2 := by
  induction h with
  | refl u => exact hu
  | tail hp hm ih =>
    rw [ih hu] at hm
    simp [gScc, Graph.adj] at hm

theorem gScc_not_reach_two_zero : ¬Reach gScc false 2 0 := by
  rintro ⟨k, h⟩
  exact absurd (gScc_reach_from_two h rfl) (by decide)

theorem inv_gTree : Inv gTree :=
  ⟨by decide, by decide, by decide, by decide, by decide, by decide, by decide, by decide⟩

theorem gTree_step {v w : Nat} (hm : w ∈ gTree.adj false v) : v = 0 ∧ (w = 1 ∨ w = 2) := by
  by_cases h0 : v = 0
  · subst h0
    simpa [gTree, Graph.adj] using hm
  · simp [gTree, Graph.adj, h0] at hm

theorem gTree_acyclic : gTree.Acyclic := by
  rintro ⟨u, hu, k, h⟩
  cases h with
  | tail hp hm =>
    obtain ⟨rfl, hw⟩ := gTree_step hm
    cases hp with
    | refl => rcases hw with h | h <;> omega
    | tail hp2 hm2 =>
      obtain ⟨_, hw2⟩ := gTree_step hm2
      rcases hw2 with h | h <;> omega

theorem inv_gCycle2 : Inv gCycle2 :=
  ⟨by decide, by decide, by decide, by decide, by decide, by decide, by decide, by decide⟩

/-! Correctness of the breadth-first search. -/

theorem bfsLoop_zero (g : Graph) (rev : Bool) (md : Option Nat) (q : List SearchNode)
    (vis : List Nat) : bfsLoop g rev md 0 q vis = [] := rfl

theorem bfsLoop_nil (g : Graph) (rev : Bool) (md : Option Nat) (fuel : Nat)
    (vis : List Nat) : bfsLoop g rev md (fuel + 1) [] vis = [] := rfl

theorem bfsLoop_cons_none (g : Graph) (rev : Bool) (fuel : Nat) (sn : SearchNode)
    (q : List SearchNode) (vis : List Nat) :
    bfsLoop g rev none (fuel + 1) (sn :: q) vis =
      sn :: bfsLoop g rev none fuel
        (((g.adj rev sn.node).foldl
          (fun acc c => if c ∈ acc.1 then acc else (c :: acc.1, acc.2 ++ [sn.next_node c]))
          (vis, q)).2)
        (((g.adj rev sn.node).foldl
          (fun acc c => if c ∈ acc.1 then acc else (c :: acc.1, acc.2 ++ [sn.next_node c]))
          (vis, q)).1) := by
  simp only [bfsLoop]
  rw [if_neg (by simp)]

theorem bfsFold_spec (g : Graph) (rev : Bool) (sn : SearchNode) :
    ∀ (l vis : List Nat) (q : List SearchNode),
      ∃ newq, BfsFoldOut g rev sn l vis q
        (l.foldl (fun acc c => if c ∈ acc.1 then acc else (c :: acc.1, acc.2 ++ [sn.next_node c]))
          (vis, q)) newq := by
  intro l
  induction l with
  | nil =>
    intro vis q
    exact ⟨[], by simp, by simp, by intro x; simp, by simp, by simp, by simp,
      by intro _ _; simp⟩
  | cons c cs ih =>
    intro vis q
    rw [List.foldl_cons]
    dsimp only
    by_cases hc : c ∈ vis
    · rw [if_pos hc]
      obtain ⟨newq, hF⟩ := ih vis q
      refine ⟨newq, hF.queue, ?_, hF.visMem, hF.freshMem, hF.nodupNew, ?_, ?_⟩
      · intro s hs
        obtain ⟨d, hd, he⟩ := hF.shape s hs
        exact ⟨d, List.mem_cons_of_mem _ hd, he⟩
      · intro d hd
        rcases List.mem_cons.1 hd with rfl | hd'
        · exact (hF.visMem d).2 (Or.inl hc)
        · exact hF.covered d hd'
      · intro hl hN
        exact hF.cost (fun d hd => hl d (List.mem_cons_of_mem _ hd)) hN
    · rw [if_neg hc]
      obtain ⟨newq, hF⟩ := ih (c :: vis) (q ++ [sn.next_node c])
      refine ⟨sn.next_node c :: newq, ?_, ?_, ?_, ?_, ?_, ?_, ?_⟩
      · rw [hF.queue]
        simp
      · intro s hs
        rcases List.mem_cons.1 hs with rfl | hs'
        · exact ⟨c, List.mem_cons_self c cs, rfl⟩
        · obtain ⟨d, hd, he⟩ := hF.shape s hs'
          exact ⟨d, List.mem_cons_of_mem _ hd, he⟩
      · intro x
        rw [hF.visMem x, List.map_cons, node_next]
        simp only [List.mem_cons]
        tauto
      · intro x hx
        rw [List.map_cons, node_next] at hx
        rcases List.mem_cons.1 hx with rfl | hx'
        · exact hc
        · intro hxv
          exact hF.freshMem x hx' (List.mem_cons_of_mem _ hxv)
      · rw [List.map_cons, node_next]
        refine List.nodup_cons.2 ⟨?_, hF.nodupNew⟩
        intro hmem
        exact hF.freshMem c hmem (List.mem_cons_self c vis)
      · intro d hd
        rcases List.mem_cons.1 hd with rfl | hd'
        · exact (hF.visMem d).2 (Or.inl (List.mem_cons_self d vis))
        · exact hF.covered d hd'
      · intro hl hN
        have h1 := hF.cost (fun d hd => hl d (List.mem_cons_of_mem _ hd)) hN
        have h2 : visitSum g rev vis = 1 + (g.adj rev c).length + visitSum g rev (c :: vis) :=
          visitSum_cons hN (hl c (List.mem_cons_self c cs)) hc
        simp only [List.length_cons]
        omega

theorem pairwise_dist_const {l : List SearchNode} {d : Nat}
    (h : ∀ s ∈ l, SearchNode.dist s = d) :
    List.Pairwise (fun a b => SearchNode.dist a ≤ SearchNode.dist b) l := by
  induction l with
  | nil => exact List.Pairwise.nil
  | cons a as ih =>
    refine List.pairwise_cons.2 ⟨?_, ih (fun s hs => h s (List.mem_cons_of_mem _ hs))⟩
    intro b hb
    rw [h a (List.mem_cons_self a as), h b (List.mem_cons_of_mem _ hb)]

theorem mem_eq_of_map_nodup {L : List SearchNode} (h : (L.map SearchNode.node).Nodup)
    {a b : SearchNode} (ha : a ∈ L) (hb : b ∈ L) (hab : a.node = b.node) : a = b := by
  induction L with
  | nil => cases ha
  | cons x xs ih =>
    rw [List.map_cons, List.nodup_cons] at h
    rcases List.mem_cons.1 ha with rfl | ha' <;> rcases List.mem_cons.1 hb with rfl | hb'
    · rfl
    · exfalso
      exact h.1 (by rw [hab]; exact List.mem_map_of_mem SearchNode.node hb')
    · exfalso
      exact h.1 (by rw [← hab]; exact List.mem_map_of_mem SearchNode.node ha')
    · exact ih h.2 ha' hb'

theorem bfsLoop_master {g : Graph} {rev : Bool} (hN : g.nodes.Nodup)
    (hclosed : AdjClosed g rev) (r : Nat) :
    ∀ (fuel : Nat) (q : List SearchNode) (vis : List Nat),
      (∀ s ∈ q, s.node ∈ g.nodes) →
      (∀ s ∈ q, s.node ∈ vis) →
      (q.map SearchNode.node).Nodup →
      List.Pairwise (fun a b => SearchNode.dist a ≤ SearchNode.dist b) q →
      (∀ a ∈ q, ∀ b ∈ q, a.dist ≤ b.dist + 1) →
      (∀ s ∈ q, ReachN g rev s.dist r s.node) →
      q.length + visitSum g rev vis ≤ fuel →
      BfsOut g rev r q vis (bfsLoop g rev none fuel q vis) := by
  intro fuel
  induction fuel with
  | zero =>
    intro q vis h1 h2 h3 h4 h5 h6 h7
    have hq : q = [] := List.length_eq_zero.1 (by omega)
    subst hq
    exact ⟨⟨[], rfl⟩, by simp [bfsLoop_zero], by simp [bfsLoop_zero],
      by simp [bfsLoop_zero], by simp [bfsLoop_zero], by simp [bfsLoop_zero]⟩
  | succ fuel ih =>
    intro q vis h1 h2 h3 h4 h5 h6 h7
    cases q with
    | nil =>
      exact ⟨⟨[], rfl⟩, by simp [bfsLoop_nil], by simp [bfsLoop_nil],
        by simp [bfsLoop_nil], by simp [bfsLoop_nil], by simp [bfsLoop_nil]⟩
    | cons sn qtail =>
      rw [bfsLoop_cons_none]
      obtain ⟨newq, hF⟩ := bfsFold_spec g rev sn (g.adj rev sn.node) vis qtail
      set st := (g.adj rev sn.node).foldl
        (fun acc c => if c ∈ acc.1 then acc else (c :: acc.1, acc.2 ++ [sn.next_node c]))
        (vis, qtail) with hst
      have hsnN : sn.node ∈ g.nodes := h1 sn (List.mem_cons_self sn qtail)
      have hadjN : ∀ c ∈ g.adj rev sn.node, c ∈ g.nodes := hclosed sn.node hsnN
      have hsnv : sn.node ∈ vis := h2 sn (List.mem_cons_self sn qtail)
      rw [List.map_cons, List.nodup_cons] at h3
      rw [List.pairwise_cons] at h4
      have hnewd : ∀ s ∈ newq, s.dist = sn.dist + 1 := by
        intro s hs
        obtain ⟨c, _, rfl⟩ := hF.shape s hs
        rfl
      have hnewn : ∀ s ∈ newq, s.node ∈ g.adj rev sn.node := by
        intro s hs
        obtain ⟨c, hcadj, rfl⟩ := hF.shape s hs
        rw [node_next]
        exact hcadj
      have hvsub : ∀ x ∈ vis, x ∈ st.1 := fun x hx => (hF.visMem x).2 (Or.inl hx)
      have g1 : ∀ s ∈ qtail ++ newq, s.node ∈ g.nodes := by
        intro s hs
        rcases List.mem_append.1 hs with hs' | hs'
        · exact h1 s (List.mem_cons_of_mem _ hs')
        · exact hadjN s.node (hnewn s hs')
      have g2 : ∀ s ∈ qtail ++ newq, s.node ∈ st.1 := by
        intro s hs
        rcases List.mem_append.1 hs with hs' | hs'
        · exact hvsub s.node (h2 s (List.mem_cons_of_mem _ hs'))
        · exact (hF.visMem s.node).2 (Or.inr (List.mem_map_of_mem SearchNode.node hs'))
      have g3 : ((qtail ++ newq).map SearchNode.node).Nodup := by
        rw [List.map_append, List.nodup_append]
        refine ⟨h3.2, hF.nodupNew, ?_⟩
        intro x hx hx2
        obtain ⟨s, hs, rfl⟩ := List.mem_map.1 hx
        exact hF.freshMem s.node hx2 (h2 s (List.mem_cons_of_mem _ hs))
      have g4 : List.Pairwise (fun a b => SearchNode.dist a ≤ SearchNode.dist b)
          (qtail ++ newq) := by
        rw [List.pairwise_append]
        refine ⟨h4.2, pairwise_dist_const hnewd, ?_⟩
        intro a ha b hb
        have hd := hnewd b hb
        have h5' := h5 a (List.mem_cons_of_mem _ ha) sn (List.mem_cons_self sn qtail)
        omega
      have g5 : ∀ a ∈ qtail ++ newq, ∀ b ∈ qtail ++ newq, a.dist ≤ b.dist + 1 := by
        intro a ha b hb
        rcases List.mem_append.1 ha with ha' | ha' <;>
          rcases List.mem_append.1 hb with hb' | hb'
        · exact h5 a (List.mem_cons_of_mem _ ha') b (List.mem_cons_of_mem _ hb')
        · have h5' := h5 a (List.mem_cons_of_mem _ ha') sn (List.mem_cons_self sn qtail)
          have hd := hnewd b hb'
          omega
        · have hda := hnewd a ha'
          have hdb := h4.1 b hb'
          omega
        · have hda := hnewd a ha'
          have hdb := hnewd b hb'
          omega
      have g6 : ∀ s ∈ qtail ++ newq, ReachN g rev s.dist r s.node := by
        intro s hs
        rcases List.mem_append.1 hs with hs' | hs'
        · exact h6 s (List.mem_cons_of_mem _ hs')
        · obtain ⟨c, hcadj, rfl⟩ := hF.shape s hs'
          rw [node_next]
          have hd : (sn.next_node c).dist = sn.dist + 1 := rfl
          rw [hd]
          exact ReachN.tail (h6 sn (List.mem_cons_self sn qtail)) hcadj
      have g7 : (qtail ++ newq).length + visitSum g rev st.1 ≤ fuel := by
        have hcost := hF.cost hadjN hN
        rw [List.length_append]
        simp only [List.length_cons] at h7
        omega
      have hIH := ih (qtail ++ newq) st.1 g1 g2 g3 g4 g5 g6 g7
      rw [hF.queue]
      set L := bfsLoop g rev none fuel (qtail ++ newq) st.1 with hL
      have hsd : ∀ s ∈ L, sn.dist ≤ s.dist := by
        intro s hs
        obtain ⟨t, ht, htd⟩ := hIH.lb s hs
        rcases List.mem_append.1 ht with ht' | ht'
        · have := h4.1 t ht'
          omega
        · have := hnewd t ht'
          omega
      have hnewqL : ∀ s ∈ newq, s ∈ L := by
        intro s hs
        obtain ⟨rest, hrest⟩ := hIH.drain
        rw [hrest]
        exact List.mem_append_left _ (List.mem_append_right _ hs)
      refine ⟨?_, ?_, ?_, ?_, ?_, ?_⟩
      · obtain ⟨rest, hrest⟩ := hIH.drain
        exact ⟨newq ++ rest, by rw [hrest]; simp⟩
      · rw [List.map_cons, List.nodup_cons]
        refine ⟨?_, hIH.nodupOut⟩
        intro hmem
        rcases hIH.newOrOld sn.node hmem with hq' | hnv
        · rw [List.map_append] at hq'
          rcases List.mem_append.1 hq' with hq'' | hq''
          · exact h3.1 hq''
          · exact hF.freshMem sn.node hq'' hsnv
        · exact hnv (hvsub sn.node hsnv)
      · intro x hx
        rw [List.map_cons] at hx
        rcases List.mem_cons.1 hx with rfl | hx'
        · exact Or.inl (by rw [List.map_cons]; exact List.mem_cons_self _ _)
        · rcases hIH.newOrOld x hx' with hq' | hnv
          · rw [List.map_append] at hq'
            rcases List.mem_append.1 hq' with hq'' | hq''
            · exact Or.inl (by rw [List.map_cons]; exact List.mem_cons_of_mem _ hq'')
            · exact Or.inr (hF.freshMem x hq'')
          · exact Or.inr (fun hxv => hnv (hvsub x hxv))
      · intro s hs
        rcases List.mem_cons.1 hs with rfl | hs'
        · exact h6 s (List.mem_cons_self s qtail)
        · exact hIH.sound s hs'
      · intro s hs
        rcases List.mem_cons.1 hs with rfl | hs'
        · exact ⟨s, List.mem_cons_self s qtail, Nat.le_refl _⟩
        · exact ⟨sn, List.mem_cons_self sn qtail, hsd s hs'⟩
      · intro s hs c hcadj
        rcases List.mem_cons.1 hs with rfl | hs'
        · have hcst : c ∈ st.1 := hF.covered c hcadj
          rcases (hF.visMem c).1 hcst with hcv | hcm
          · exact Or.inl hcv
          · obtain ⟨s', hs'', hs'n⟩ := List.mem_map.1 hcm
            refine Or.inr ⟨s', List.mem_cons_of_mem _ (hnewqL s' hs''), hs'n, ?_⟩
            have := hnewd s' hs''
            omega
        · rcases hIH.nbr s hs' c hcadj with hcv | ⟨s', hs'', hn', hd'⟩
          · rcases (hF.visMem c).1 hcv with hcv' | hcm
            · exact Or.inl hcv'
            · obtain ⟨s', hs'', hs'n⟩ := List.mem_map.1 hcm
              refine Or.inr ⟨s', List.mem_cons_of_mem _ (hnewqL s' hs''), hs'n, ?_⟩
              have hd1 := hnewd s' hs''
              have hd2 := hsd s hs'
              omega
          · exact Or.inr ⟨s', List.mem_cons_of_mem _ hs'', hn', hd'⟩

theorem bfs_path_out {g : Graph} (hInv : Inv g) (rev : Bool) {r : Nat}
    (hr : r ∈ g.nodes) :
    BfsOut g rev r [SearchNode.root r 0] [r] (Node.bfs_path g rev none r) := by
  refine bfsLoop_master hInv.nodesNodup (inv_adjClosed hInv rev) r g.fuelBound
    [SearchNode.root r 0] [r] ?_ ?_ ?_ ?_ ?_ ?_ ?_
  · intro s hs
    rw [List.mem_singleton] at hs
    subst hs
    exact hr
  · intro s hs
    rw [List.mem_singleton] at hs
    subst hs
    exact List.mem_singleton.2 rfl
  · simp
  · simp
  · intro a ha b hb
    exact Nat.le_succ_of_le (Nat.le_of_eq (by simp at ha hb; rw [ha, hb]))
  · intro s hs
    rw [List.mem_singleton] at hs
    subst hs
    exact ReachN.refl r
  · have hm : visitSum g rev [r] ≤ visitSum g rev ([] : List Nat) :=
      visitSum_mono (fun x hx => absurd hx (List.not_mem_nil x))
    have hb2 := visitSum_le (g := g) rev ([] : List Nat)
    simp only [List.length_singleton]
    omega

theorem bfs_path_complete {g : Graph} (hInv : Inv g) (rev : Bool) {r : Nat}
    (hr : r ∈ g.nodes) :
    ∀ k x, ReachN g rev k r x →
      ∃ s ∈ Node.bfs_path g rev none r, s.node = x ∧ s.dist ≤ k := by
  have hout := bfs_path_out hInv rev hr
  have hroot : SearchNode.root r 0 ∈ Node.bfs_path g rev none r := by
    obtain ⟨rest, hrest⟩ := hout.drain
    rw [hrest]
    exact List.mem_append_left _ (List.mem_singleton.2 rfl)
  intro k
  induction k with
  | zero =>
    intro x hx
    exact ⟨SearchNode.root r 0, hroot, reachN_zero hx, Nat.le_refl 0⟩
  | succ k ihk =>
    intro x hx
    cases hx with
    | tail hp hm =>
      obtain ⟨s, hs, hnode, hdist⟩ := ihk _ hp
      have hm' : x ∈ g.adj rev s.node := by rw [hnode]; exact hm
      rcases hout.nbr s hs x hm' with hxv | ⟨s', hs', hn', hd'⟩
      · exact ⟨SearchNode.root r 0, hroot, (List.mem_singleton.1 hxv).symm, Nat.zero_le _⟩
      · exact ⟨s', hs', hn', by omega⟩

theorem inv_gChain : Inv gChain :=
  ⟨by decide, by decide, by decide, by decide, by decide, by decide, by decide, by decide⟩

/-! Statements of the claims. -/

/-- C1: every component yielded by strongly_connected_components (inner
iterators fully consumed in order) is exactly one strongly connected
component.  The code refutes this: on the well-formed graph gScc (edges
0 -> 1, 1 -> 0, 0 -> 2) it yields the single component [2, 0, 1], merging
the strongly connected component of 0 and 1 with that of 2, although 2
cannot even reach 0. -/
theorem claim_C1 :
    Inv gScc ∧ gScc.strongly_connected_components = [[2, 0, 1]] ∧
      0 ∈ [2, 0, 1] ∧ 2 ∈ [2, 0, 1] ∧ ¬Reach gScc false 2 0 :=
  ⟨inv_gScc, rfl, by decide, by decide, gScc_not_reach_two_zero⟩

/-- C2: tree_root should return the unique root exactly on non-empty
strictly acyclic graphs with exactly one root, and the absence signal in
every other case.  The code refutes the second half: on the well-formed
edgeless two-node graph gTwo, an acyclic forest whose two nodes 0 and 1
both lack a structural predecessor, tree_root returns node 0 instead of
the absence signal.  On the in-scope examples it behaves as stated: the
out-tree gTree gives its root 0 and the cycle gCycle2 gives absence. -/
theorem claim_C2 :
    Inv gTwo ∧ gTwo.tree_root = .ok (some 0) ∧ gTwo.nodes = [0, 1] ∧
      gTwo.inn 0 = [] ∧ gTwo.inn 1 = [] ∧
      gTree.tree_root = .ok (some 0) ∧ gCycle2.tree_root = .ok none :=
  ⟨inv_gTwo, rfl, rfl, rfl, rfl, rfl, rfl⟩

/-- C7: every public mutating operation (Graph.new, Node.link, Node.unlink,
Node.remove) preserves the adjacency invariant on the nodes remaining in
the graph: no duplicate adjacency entries, no self loops, adjacency inside
the registry, and out and in lists mirroring each other. -/
theorem claim_C7 {g : Graph} (h : Inv g) :
    (∀ i g', g.new i = .ok g' → Inv g') ∧
      (∀ a ∈ g.nodes, ∀ b ∈ g.nodes, Inv (Node.link g a b)) ∧
      (∀ a b, Inv (Node.unlink g a b)) ∧
      (∀ n ∈ g.nodes, Inv (Node.remove g n)) :=
  ⟨fun _ _ hok => inv_new h hok,
   fun _ ha _ hb => inv_link h ha hb,
   fun a b => inv_unlink h a b,
   fun _ hn => inv_remove h hn⟩

theorem claim_C7_witness :
    Inv gTwo ∧
      ((∀ i g', gTwo.new i = .ok g' → Inv g') ∧
        (∀ a ∈ gTwo.nodes, ∀ b ∈ gTwo.nodes, Inv (Node.link gTwo a b)) ∧
        (∀ a b, Inv (Node.unlink gTwo a b)) ∧
        (∀ n ∈ gTwo.nodes, Inv (Node.remove gTwo n))) :=
  ⟨inv_gTwo, claim_C7 inv_gTwo⟩

/-- C8: linking two distinct nodes of one graph records the edge in both
adjacency directions, and linking again is idempotent: the whole graph,
in particular both adjacency lists with their lengths and order, is left
exactly as after the first call. -/
theorem claim_C8 {g : Graph} {a b : Nat} (ha : a ∈ g.nodes) (hb : b ∈ g.nodes)
    (hab : a ≠ b) :
    b ∈ (Node.link g a b).out a ∧ a ∈ (Node.link g a b).inn b ∧
      Node.link (Node.link g a b) a b = Node.link g a b :=
  ⟨link_mem_out_self hab, link_mem_inn_self hab, link_idem g a b⟩

theorem claim_C8_witness :
    (0 ∈ gTwo.nodes ∧ 1 ∈ gTwo.nodes ∧ (0 : Nat) ≠ 1) ∧
      (1 ∈ (Node.link gTwo 0 1).out 0 ∧ 0 ∈ (Node.link gTwo 0 1).inn 1 ∧
        Node.link (Node.link gTwo 0 1) 0 1 = Node.link gTwo 0 1) :=
  ⟨⟨by decide, by decide, by decide⟩, claim_C8 (by decide) (by decide) (by decide)⟩

/-- C9: link raises exactly when the two nodes belong to different Graph
instances, and on the error path no state of any graph is touched; on
nodes of one graph it never raises. -/
theorem claim_C9 (w : World) (a b : NodeRef) :
    ((World.link w a b).2.isSome ↔ a.gidx ≠ b.gidx) ∧
      ((World.link w a b).2.isSome → (World.link w a b).1 = w) :=
  world_link_spec w a b


/-- C3: on every well-formed acyclic graph, topological_order with default
arguments lists every node exactly once, and for every edge u to v the node
u appears strictly before v. -/
theorem claim_C3 {g : Graph} (hInv : Inv g) (hAcyc : g.Acyclic) :
    (g.topological_order false).Perm g.nodes ∧
      ∀ u ∈ g.nodes, ∀ v ∈ g.out u,
        (g.topological_order false).indexOf u < (g.topological_order false).indexOf v := by
  obtain ⟨hnd, hmem⟩ := topological_order_mem hInv
  refine ⟨(List.perm_ext_iff_of_nodup hnd hInv.nodesNodup).2 hmem, ?_⟩
  intro u hu v hv
  exact before_indexOf hnd (topological_order_before hInv hAcyc u hu v hv)

theorem claim_C3_witness :
    (Inv gTree ∧ gTree.Acyclic) ∧
      ((gTree.topological_order false).Perm gTree.nodes ∧
        ∀ u ∈ gTree.nodes, ∀ v ∈ gTree.out u,
          (gTree.topological_order false).indexOf u <
            (gTree.topological_order false).indexOf v) :=
  ⟨⟨inv_gTree, gTree_acyclic⟩, claim_C3 inv_gTree gTree_acyclic⟩

/-- C4: on every well-formed graph, has_cycle with default arguments answers
true exactly when the graph contains a directed cycle starting at one of
its nodes (and it answers, rather than raising). -/
theorem claim_C4 {g : Graph} (hInv : Inv g) :
    g.has_cycle true false = .ok true ↔ g.Cyclic :=
  has_cycle_iff hInv

theorem claim_C4_witness :
    Inv gCycle2 ∧ (gCycle2.has_cycle true false = .ok true ↔ gCycle2.Cyclic) :=
  ⟨inv_gCycle2, claim_C4 inv_gCycle2⟩

/-- C6: in a single-root run of edges_iter on a well-formed graph, every
yielded edge (u, v) is classified by the tri-state marker of v at that
moment: a tree edge exactly on unseen targets, a trivial back edge exactly
on in-progress targets equal to the immediate parent of u, a back edge
exactly on other in-progress targets, and a cross edge exactly on finished
targets; moreover in-progress means exactly membership in the SearchNode
chain from u back to the search root, and finished means membership in the
finish list.  The first conjunct ties the source edges_iter to the
instrumented run the statement quantifies over. -/
theorem claim_C6 {g : Graph} (hInv : Inv g) (rev : Bool) {r : Nat} (hr : r ∈ g.nodes) :
    (Node.edges_iter g rev g.fuelBound r (SearchNode.root r 0) (fun _ => none)).1 =
      (Node.edgesIterI g rev g.fuelBound r (SearchNode.root r 0) (fun _ => none) []).1.map
        (fun e => (e.ty, e.sn)) ∧
      ∀ e ∈ (Node.edgesIterI g rev g.fuelBound r (SearchNode.root r 0) (fun _ => none) []).1,
        ∃ usn : SearchNode, e.sn.parent? = some usn ∧
          (∀ n, e.pre n = some VisitedType.EXPLORED ↔ n ∈ usn.chain) ∧
          (∀ n, e.pre n = some VisitedType.VISITED ↔ n ∈ e.fin) ∧
          (e.ty = .TREE_EDGE ↔ e.pre e.sn.node = none) ∧
          (e.ty = .TRIVIAL_BACK_EDGE ↔ e.pre e.sn.node = some VisitedType.EXPLORED ∧
            usn.parent?.map SearchNode.node = some e.sn.node) ∧
          (e.ty = .BACK_EDGE ↔ e.pre e.sn.node = some VisitedType.EXPLORED ∧
            usn.parent?.map SearchNode.node ≠ some e.sn.node) ∧
          (e.ty = .CROSS_EDGE ↔ e.pre e.sn.node = some VisitedType.VISITED) := by
  constructor
  · rw [edges_iter_proj g rev g.fuelBound r (SearchNode.root r 0) (fun _ => none) []]
  · exact edges_iter_classification hInv rev hr

theorem claim_C6_witness :
    (Inv gScc ∧ 0 ∈ gScc.nodes) ∧
      ((Node.edges_iter gScc false gScc.fuelBound 0 (SearchNode.root 0 0)
          (fun _ => none)).1 =
        (Node.edgesIterI gScc false gScc.fuelBound 0 (SearchNode.root 0 0)
          (fun _ => none) []).1.map (fun e => (e.ty, e.sn)) ∧
        ∀ e ∈ (Node.edgesIterI gScc false gScc.fuelBound 0 (SearchNode.root 0 0)
            (fun _ => none) []).1,
          ∃ usn : SearchNode, e.sn.parent? = some usn ∧
            (∀ n, e.pre n = some VisitedType.EXPLORED ↔ n ∈ usn.chain) ∧
            (∀ n, e.pre n = some VisitedType.VISITED ↔ n ∈ e.fin) ∧
            (e.ty = .TREE_EDGE ↔ e.pre e.sn.node = none) ∧
            (e.ty = .TRIVIAL_BACK_EDGE ↔ e.pre e.sn.node = some VisitedType.EXPLORED ∧
              usn.parent?.map SearchNode.node = some e.sn.node) ∧
            (e.ty = .BACK_EDGE ↔ e.pre e.sn.node = some VisitedType.EXPLORED ∧
              usn.parent?.map SearchNode.node ≠ some e.sn.node) ∧
            (e.ty = .CROSS_EDGE ↔ e.pre e.sn.node = some VisitedType.VISITED)) :=
  ⟨⟨inv_gScc, by decide⟩, claim_C6 inv_gScc false (by decide)⟩

/-- C10: on graphs built through the public interface (so satisfying the
adjacency invariant, in particular free of self loops), neither a
single-root edges_iter run nor has_cycle under any flags ever raises the
missing-parent error. -/
theorem claim_C10 {g : Graph} (hInv : Inv g) :
    (∀ rev : Bool, ∀ r ∈ g.nodes,
        (Node.edges_iter g rev g.fuelBound r (SearchNode.root r 0)
          (fun _ => none)).2.2 = none) ∧
      ∀ ac atb : Bool, ∃ b, g.has_cycle ac atb = .ok b :=
  ⟨fun rev r hr => edges_iter_never_raises hInv rev hr,
   fun ac atb => has_cycle_never_raises hInv ac atb⟩

theorem claim_C10_witness :
    Inv gScc ∧
      ((∀ rev : Bool, ∀ r ∈ gScc.nodes,
          (Node.edges_iter gScc rev gScc.fuelBound r (SearchNode.root r 0)
            (fun _ => none)).2.2 = none) ∧
        ∀ ac atb : Bool, ∃ b, gScc.has_cycle ac atb = .ok b) :=
  ⟨inv_gScc, claim_C10 inv_gScc⟩

/-- C5: on graphs satisfying the adjacency invariant, bfs_path from a node r
of the graph with max_depth unset yields first the root SearchNode of r
with dist 0, yields each node at most once, yields exactly the nodes
reachable from r, and attaches to every yielded node its true shortest
hop-count from r: the dist is achieved by a real walk, and no shorter walk
from r to that node exists. -/
theorem claim_C5 {g : Graph} (hInv : Inv g) {r : Nat} (hr : r ∈ g.nodes) :
    (Node.bfs_path g false none r).head? = some (SearchNode.root r 0) ∧
      ((Node.bfs_path g false none r).map SearchNode.node).Nodup ∧
      (∀ v, v ∈ (Node.bfs_path g false none r).map SearchNode.node ↔ Reach g false r v) ∧
      ∀ s ∈ Node.bfs_path g false none r,
        ReachN g false s.dist r s.node ∧ ∀ k, ReachN g false k r s.node → s.dist ≤ k := by
  have hout := bfs_path_out hInv false hr
  have hcomp := bfs_path_complete hInv false hr
  obtain ⟨rest, hrest⟩ := hout.drain
  refine ⟨?_, hout.nodupOut, ?_, ?_⟩
  · rw [hrest]
    rfl
  · intro v
    constructor
    · intro hv
      obtain ⟨s, hs, rfl⟩ := List.mem_map.1 hv
      exact ⟨s.dist, hout.sound s hs⟩
    · rintro ⟨k, hk⟩
      obtain ⟨s, hs, hn, _⟩ := hcomp k v hk
      rw [← hn]
      exact List.mem_map_of_mem SearchNode.node hs
  · intro s hs
    refine ⟨hout.sound s hs, ?_⟩
    intro k hk
    obtain ⟨s', hs', hn', hd'⟩ := hcomp k s.node hk
    have heq : s' = s := mem_eq_of_map_nodup hout.nodupOut hs' hs hn'
    rw [heq] at hd'
    exact hd'

theorem claim_C5_witness :
    (Inv gChain ∧ 0 ∈ gChain.nodes) ∧
      ((Node.bfs_path gChain false none 0).head? = some (SearchNode.root 0 0) ∧
        ((Node.bfs_path gChain false none 0).map SearchNode.node).Nodup ∧
        (∀ v, v ∈ (Node.bfs_path gChain false none 0).map SearchNode.node ↔
          Reach gChain false 0 v) ∧
        ∀ s ∈ Node.bfs_path gChain false none 0,
          ReachN gChain false s.dist 0 s.node ∧
            ∀ k, ReachN gChain false k 0 s.node → s.dist ≤ k) :=
  ⟨⟨inv_gChain, by decide⟩, claim_C5 inv_gChain (by decide)⟩

end Hippo
